import Mathlib

/-!
# go-df: filesystem capacity snapshot (`df.go`)

A shallow embedding of `df.go` together with the properties of its
arithmetic.  The program stores every byte count as a Go `float64`, so the
embedding contains an executable model of IEEE 754 binary64 arithmetic in
round-to-nearest, ties-to-even mode.

Conventions of the model:

* Target platform linux/amd64: `syscall.Statfs_t.Blocks` and `.Bfree` are
  `uint64`, `.Bsize` is `int64`, `int` is 64 bits wide, and every floating
  point operation is rounded on its own (no fused multiply-add).
* A finite binary64 value is an integer multiple of `2^(-1074)`.  The model
  stores a finite value as a sign and the magnitude counted in these units:
  `F64.fin neg n` denotes `(-1)^neg * n * 2^(-1074)`.  The largest finite
  magnitude is `(2^53 - 1) * 2^2045` units, and `2^2098` units (the value
  `2^1024`) is the overflow threshold after rounding.
-/

namespace Df

/-! ## IEEE 754 binary64 -/

/-- Values of Go's `float64`: one NaN, the two infinities, and the finite values
`(-1)^neg * n * 2^(-1074)` (signed zeros included, as `n = 0`). -/
inductive F64 where
  | nan : F64
  | inf (neg : Bool) : F64
  | fin (neg : Bool) (n : Nat) : F64
  deriving DecidableEq, Repr

/-- Number of units in the value one: `2^1074`. -/
def one64 : Nat := 2 ^ 1074

/-- Magnitudes (in units) at or above this bound are not finite binary64 values:
`2^2098` units is the value `2^1024`. -/
def ovf64 : Nat := 2 ^ 2098

/-- Position of the highest set bit by binary search over `k` levels: for
`0 < n < 2^(2^k)` the result is `⌊log₂ n⌋`; it is `0` for `n = 0`. -/
def log2b : Nat → Nat → Nat
  | 0, _ => 0
  | k + 1, n => if n < 2 ^ 2 ^ k then log2b k n else 2 ^ k + log2b k (n / 2 ^ 2 ^ k)

/-- Round the non-negative rational `p / d` to the nearest natural number, ties
to even: the quotient `m` is rounded up when the remainder is more than half of
`d`, or exactly half of `d` with `m` odd. -/
def rni (p d : Nat) : Nat :=
  let m := p / d
  let r := p % d
  if 2 * r < d then m else if d < 2 * r then m + 1 else if m % 2 = 0 then m else m + 1

/-- Exponent `E` of the grid spacing `2^E` (in units) of the binary64 values
around a magnitude with integer part `f`: `⌊log₂ f⌋ - 52`, and `0` while
`f < 2^53` (the subnormals and the lowest binade). -/
def gridExp (f : Nat) : Nat := log2b 12 f - 52

/-- Round the non-negative rational `p / q` (a magnitude in units) to the grid of
binary64 magnitudes, to nearest with ties to even: `p / q` is divided by the
grid spacing `2^E`, `E = gridExp ⌊p / q⌋`, the quotient (which has at most 53
bits) is rounded to the nearest integer, and the result is scaled back. -/
def rnMag (p q : Nat) : Nat :=
  rni p (q * 2 ^ gridExp (p / q)) * 2 ^ gridExp (p / q)

/-- The binary64 value nearest to `(-1)^neg * p / q` units (ties to even), with
overflow to the infinity of the same sign. -/
def roundNE (neg : Bool) (p q : Nat) : F64 :=
  if ovf64 ≤ p / q then .inf neg
  else if ovf64 ≤ rnMag p q then .inf neg
  else .fin neg (rnMag p q)

namespace F64

/-- Conversion `float64(x)` of an unsigned integer. -/
def ofNat (n : Nat) : F64 := roundNE false (n * one64) 1

/-- Conversion `float64(x)` of a signed integer. -/
def ofInt (z : Int) : F64 := roundNE (decide (z < 0)) (z.natAbs * one64) 1

/-- Unary minus. -/
def neg : F64 → F64
  | nan => nan
  | inf s => inf (!s)
  | fin s n => fin (!s) n

/-- Addition `x + y`. An exact zero sum of two operands of opposite sign is `+0`. -/
def add : F64 → F64 → F64
  | nan, _ => nan
  | _, nan => nan
  | inf s, inf t => if s = t then inf s else nan
  | inf s, fin _ _ => inf s
  | fin _ _, inf t => inf t
  | fin s a, fin t b =>
    if s = t then roundNE s (a + b) 1
    else if a = b then fin false 0
    else if b < a then roundNE s (a - b) 1
    else roundNE t (b - a) 1

/-- Subtraction `x - y`. -/
def sub (x y : F64) : F64 := add x (neg y)

/-- Multiplication `x * y`. -/
def mul : F64 → F64 → F64
  | nan, _ => nan
  | _, nan => nan
  | inf s, inf t => inf (xor s t)
  | inf s, fin t n => if n = 0 then nan else inf (xor s t)
  | fin s n, inf t => if n = 0 then nan else inf (xor s t)
  | fin s a, fin t b => roundNE (xor s t) (a * b) one64

/-- Division `x / y`. -/
def div : F64 → F64 → F64
  | nan, _ => nan
  | _, nan => nan
  | inf _, inf _ => nan
  | inf s, fin t _ => inf (xor s t)
  | fin s _, inf t => fin (xor s t) 0
  | fin s a, fin t b =>
    if b = 0 then (if a = 0 then nan else inf (xor s t))
    else roundNE (xor s t) (a * one64) b

/-- The function `math.Ceil`: the least integral value not below `x`; NaN, the
infinities and the zeros are returned unchanged, and a value in `(-1, 0)`
gives `-0`. -/
def ceil : F64 → F64
  | fin false n => fin false ((n + (one64 - 1)) / one64 * one64)
  | fin true n => fin true (n / one64 * one64)
  | x => x

/-- Conversion `int(x)` to the 64-bit `int`: truncation toward zero.  For NaN,
the infinities and values outside the `int64` range the amd64 conversion
instruction yields the "integer indefinite" value `-2^63`. -/
def toInt : F64 → Int
  | fin s n =>
    let t : Int := ((n / one64 : Nat) : Int)
    let z : Int := if s then -t else t
    if -(2 : Int) ^ 63 ≤ z ∧ z < (2 : Int) ^ 63 then z else -(2 : Int) ^ 63
  | _ => -(2 : Int) ^ 63

/-- Go's comparison `x == y` on `float64`: NaN differs from everything, the two
zeros are equal. -/
def eq : F64 → F64 → Bool
  | fin s a, fin t b => (a == b) && ((s == t) || (a == 0))
  | inf s, inf t => s == t
  | _, _ => false

/-- The value is neither NaN nor an infinity. -/
def isFinite : F64 → Bool
  | fin _ _ => true
  | _ => false

/-- The rational number denoted by a finite value (`0` for NaN and infinities). -/
def toRat : F64 → ℚ
  | fin s n => (if s then -1 else 1) * ((n : ℚ) / (2 : ℚ) ^ 1074)
  | _ => 0

end F64

/-! ## The program -/

/-- The Go type `DiskFree`. -/
structure DiskFree where
  total : F64
  used : F64
  avail : F64
  percentUsed : Int
  deriving DecidableEq, Repr

/-- The zero value of `DiskFree` (the initial value of the named result `f`). -/
def DiskFree.zero : DiskFree :=
  { total := .fin false 0, used := .fin false 0, avail := .fin false 0, percentUsed := 0 }

/-- The Go type `size`, an `int64`. -/
abbrev size := Int

/-- Kilobyte. -/
def KB : size := 1024
/-- Megabyte. -/
def MB : size := KB * KB
/-- Gigabyte. -/
def GB : size := MB * KB
/-- Terabyte. -/
def TB : size := GB * KB
/-- Petabyte. -/
def PB : size := TB * KB

/-- The fields of `syscall.Statfs_t` that `NewDf` reads: `Blocks` and `Bfree` are
`uint64`, `Bsize` is `int64`. -/
structure Statfs_t where
  Blocks : Nat
  Bfree : Nat
  Bsize : Int
  deriving DecidableEq, Repr

/-- The zero value `syscall.Statfs_t{}`. -/
def Statfs_t.zero : Statfs_t := { Blocks := 0, Bfree := 0, Bsize := 0 }

/-- The fields hold values of their machine types. -/
def Statfs_t.InRange (s : Statfs_t) : Prop :=
  s.Blocks < 2 ^ 64 ∧ s.Bfree < 2 ^ 64 ∧ -(2 : Int) ^ 63 ≤ s.Bsize ∧ s.Bsize < (2 : Int) ^ 63

/-- The error code type `syscall.Errno`. -/
abbrev Errno := Nat

/-- The system call `syscall.Statfs(path, buf)`: it receives the path and the
buffer and gives back the buffer and the error (`none` is Go's `nil`). -/
abbrev StatfsCall := String → Statfs_t → Statfs_t × Option Errno

/-- The function `NewDf`. -/
def NewDf (Statfs : StatfsCall) (mountPoint : String) : DiskFree × Option Errno :=
  let f := DiskFree.zero
  let s := Statfs_t.zero
  let (s, err) := Statfs mountPoint s
  if err ≠ none then (f, err)
  else
    let f : DiskFree :=
      { total := F64.mul (F64.ofNat s.Blocks) (F64.ofInt s.Bsize)
        used := F64.mul (F64.ofNat ((s.Blocks + 2 ^ 64 - s.Bfree) % 2 ^ 64)) (F64.ofInt s.Bsize)
        avail := .fin false 0
        percentUsed := 0 }
    let f := { f with avail := F64.sub f.total f.used }
    let f := { f with
      percentUsed := F64.toInt (F64.ceil (F64.mul (F64.div f.used f.total) (F64.ofNat 100))) }
    (f, err)

/-- The method `DiskFree.Total`. -/
def DiskFree.Total (df : DiskFree) (s : size) : F64 := F64.div df.total (F64.ofInt s)

/-- The method `DiskFree.Used`. -/
def DiskFree.Used (df : DiskFree) (s : size) : F64 := F64.div df.used (F64.ofInt s)

/-- The method `DiskFree.Avail`. -/
def DiskFree.Avail (df : DiskFree) (s : size) : F64 := F64.div df.avail (F64.ofInt s)

/-- The method `DiskFree.PercentUsed`. -/
def DiskFree.PercentUsed (df : DiskFree) : Int := df.percentUsed

/-- A system call that succeeds and reports the given statistics. -/
def okCall (st : Statfs_t) : StatfsCall := fun _ _ => (st, none)

/-- A system call that fails with the given error, leaving the buffer as it was. -/
def failCall (e : Errno) : StatfsCall := fun _ buf => (buf, some e)

/-! ## Predicates and bounds used in the statements -/

/-- A magnitude with a 53-bit significand: `m * 2^e` with `m ≤ 2^53`.  These are
the magnitudes on the binary64 grid (`2^53 * 2^e` is `2^52 * 2^(e+1)`). -/
def Rep (n : Nat) : Prop := ∃ m e, m ≤ 2 ^ 53 ∧ n = m * 2 ^ e

/-- A well-formed binary64 value: a finite magnitude lies on the grid and below
the overflow threshold. -/
def F64.Valid : F64 → Prop
  | .fin _ n => Rep n ∧ n < ovf64
  | _ => True

/-- Bound below which `gridExp` is exact. -/
def gridBound : Nat := 2 ^ 2 ^ 12

/-- Magnitude (in units) of the binary64 product `float64(n) * float64(S)`. -/
def prodMag (n : Nat) (S : Int) : Nat :=
  rnMag (rnMag (n * one64) 1 * rnMag (S.natAbs * one64) 1) one64

/-- A grid magnitude whose spacing is at least `2^k` units: `m * 2^e` with
`m ≤ 2^53` and `k ≤ e`. -/
def Grid (k n : Nat) : Prop := ∃ m e, m ≤ 2 ^ 53 ∧ k ≤ e ∧ n = m * 2 ^ e

/-- The fields of a snapshot are finite binary64 values whose magnitude is zero
or at least `2^(-52)`: a coarse grid magnitude. -/
def F64.Coarse : F64 → Prop
  | .fin _ n => Grid 970 n ∧ n < ovf64
  | _ => False

/-! ## The highest set bit -/

theorem log2b_zero (k : Nat) : log2b k 0 = 0 := by
  induction k with
  | zero => rfl
  | succ k ih => simp [log2b, ih]

theorem log2b_spec (k : Nat) : ∀ n : Nat, 0 < n → n < 2 ^ 2 ^ k →
    2 ^ log2b k n ≤ n ∧ n < 2 ^ (log2b k n + 1) := by
  induction k with
  | zero =>
    intro n h0 h
    have h1 : n = 1 := by simp at h; omega
    subst h1
    simp [log2b]
  | succ k ih =>
    intro n h0 h
    have hpos : 0 < 2 ^ 2 ^ k := pow_pos (by norm_num) _
    have hsq : 2 ^ 2 ^ (k + 1) = 2 ^ 2 ^ k * 2 ^ 2 ^ k := by
      rw [← pow_add]; congr 1; rw [pow_succ]; omega
    unfold log2b
    split_ifs with hlt
    · exact ih n h0 hlt
    · have hge : 2 ^ 2 ^ k ≤ n := Nat.le_of_not_lt hlt
      have hq0 : 0 < n / 2 ^ 2 ^ k := Nat.div_pos hge hpos
      have hq1 : n / 2 ^ 2 ^ k < 2 ^ 2 ^ k := by
        apply Nat.div_lt_of_lt_mul
        rw [← hsq]; exact h
      obtain ⟨hl, hu⟩ := ih _ hq0 hq1
      constructor
      · calc 2 ^ (2 ^ k + log2b k (n / 2 ^ 2 ^ k))
            = 2 ^ 2 ^ k * 2 ^ log2b k (n / 2 ^ 2 ^ k) := by rw [pow_add]
          _ ≤ 2 ^ 2 ^ k * (n / 2 ^ 2 ^ k) := Nat.mul_le_mul_left _ hl
          _ ≤ n := Nat.mul_div_le n _
      · calc n < 2 ^ 2 ^ k * (n / 2 ^ 2 ^ k + 1) := Nat.lt_mul_div_succ n hpos
          _ ≤ 2 ^ 2 ^ k * 2 ^ (log2b k (n / 2 ^ 2 ^ k) + 1) := Nat.mul_le_mul_left _ hu
          _ = 2 ^ (2 ^ k + log2b k (n / 2 ^ 2 ^ k) + 1) := by rw [← pow_add]; congr 1

theorem gridExp_lt (f : Nat) (h : f < gridBound) : f < 2 ^ (gridExp f + 53) := by
  rcases Nat.eq_zero_or_pos f with h0 | h0
  · subst h0; exact pow_pos (by norm_num) _
  · obtain ⟨_, hu⟩ := log2b_spec 12 f h0 h
    refine lt_of_lt_of_le hu (Nat.pow_le_pow_right (by norm_num) ?_)
    unfold gridExp; omega

theorem gridExp_le (f : Nat) (h : f < gridBound) (hE : 0 < gridExp f) :
    2 ^ (gridExp f + 52) ≤ f := by
  rcases Nat.eq_zero_or_pos f with h0 | h0
  · subst h0; simp [gridExp, log2b_zero] at hE
  · obtain ⟨hl, _⟩ := log2b_spec 12 f h0 h
    have : gridExp f + 52 = log2b 12 f := by unfold gridExp at hE ⊢; omega
    rw [this]; exact hl

/-! ## Rounding to the nearest integer -/

theorem rni_exact (m d : Nat) (hd : 0 < d) : rni (m * d) d = m := by
  unfold rni
  simp [Nat.mul_div_cancel _ hd, hd]

theorem rni_ge (p d : Nat) : p / d ≤ rni p d := by
  unfold rni
  simp only
  split_ifs <;> omega

theorem rni_le (p d : Nat) : rni p d ≤ p / d + 1 := by
  unfold rni
  simp only
  split_ifs <;> omega

theorem rni_mono (a b d : Nat) (hab : a ≤ b) : rni a d ≤ rni b d := by
  have hm : a / d ≤ b / d := Nat.div_le_div_right hab
  rcases Nat.lt_or_ge (a / d) (b / d) with hlt | hge
  · calc rni a d ≤ a / d + 1 := rni_le a d
      _ ≤ b / d := hlt
      _ ≤ rni b d := rni_ge b d
  · have heq : a / d = b / d := le_antisymm hm hge
    have ha := Nat.div_add_mod a d
    have hb := Nat.div_add_mod b d
    rw [heq] at ha
    unfold rni
    simp only [heq]
    split_ifs <;> omega

theorem rni_scale (p d k : Nat) (hk : 0 < k) : rni (p * k) (d * k) = rni p d := by
  unfold rni
  have h1 : p * k / (d * k) = p / d := Nat.mul_div_mul_right p d hk
  have h2 : p * k % (d * k) = p % d * k := Nat.mul_mod_mul_right k p d
  have c1 : 2 * (p % d * k) < d * k ↔ 2 * (p % d) < d := by
    rw [← Nat.mul_assoc]; exact Nat.mul_lt_mul_right hk
  have c2 : d * k < 2 * (p % d * k) ↔ d < 2 * (p % d) := by
    rw [← Nat.mul_assoc]; exact Nat.mul_lt_mul_right hk
  simp only [h1, h2, c1, c2]

theorem rni_near (p d : Nat) (hd : 0 < d) :
    2 * (rni p d * d - p) ≤ d ∧ 2 * (p - rni p d * d) ≤ d := by
  have h1 := Nat.div_add_mod p d
  have h2 := Nat.mod_lt p hd
  have h3 : (p / d + 1) * d = d * (p / d) + d := by ring
  have h4 : p / d * d = d * (p / d) := Nat.mul_comm _ _
  unfold rni
  simp only
  split_ifs <;> simp only [h3, h4] <;> omega

/-! ## Rounding to the binary64 grid -/

theorem rnMag_quot (p q : Nat) :
    p / (q * 2 ^ gridExp (p / q)) = p / q / 2 ^ gridExp (p / q) :=
  (Nat.div_div_eq_div_mul p q _).symm

theorem rnMag_quot_lt (p q : Nat) (h : p / q < gridBound) :
    p / (q * 2 ^ gridExp (p / q)) < 2 ^ 53 := by
  rw [rnMag_quot]
  apply Nat.div_lt_of_lt_mul
  rw [← pow_add]
  exact gridExp_lt _ h

theorem rnMag_quot_ge (p q : Nat) (h : p / q < gridBound) (hE : 0 < gridExp (p / q)) :
    2 ^ 52 ≤ p / (q * 2 ^ gridExp (p / q)) := by
  rw [rnMag_quot, Nat.le_div_iff_mul_le (pow_pos (by norm_num) _), ← pow_add, Nat.add_comm]
  exact gridExp_le _ h hE

theorem rnMag_le_pow (p q : Nat) (h : p / q < gridBound) :
    rnMag p q ≤ 2 ^ (gridExp (p / q) + 53) := by
  unfold rnMag
  have h1 := rni_le p (q * 2 ^ gridExp (p / q))
  have h2 := rnMag_quot_lt p q h
  rw [Nat.add_comm, pow_add]
  exact Nat.mul_le_mul_right _ (by omega)

theorem rnMag_ge_pow (p q : Nat) (h : p / q < gridBound) (hE : 0 < gridExp (p / q)) :
    2 ^ (gridExp (p / q) + 52) ≤ rnMag p q := by
  unfold rnMag
  have h1 := rni_ge p (q * 2 ^ gridExp (p / q))
  have h2 := rnMag_quot_ge p q h hE
  rw [Nat.add_comm, pow_add]
  exact Nat.mul_le_mul_right _ (by omega)

theorem rnMag_rep (p q : Nat) (h : p / q < gridBound) : Rep (rnMag p q) := by
  refine ⟨rni p (q * 2 ^ gridExp (p / q)), gridExp (p / q), ?_, rfl⟩
  have h1 := rni_le p (q * 2 ^ gridExp (p / q))
  have h2 := rnMag_quot_lt p q h
  omega

theorem rnMag_near (p q : Nat) (hq : 0 < q) :
    2 * (rnMag p q * q - p) ≤ q * 2 ^ gridExp (p / q) ∧
    2 * (p - rnMag p q * q) ≤ q * 2 ^ gridExp (p / q) := by
  have h := rni_near p (q * 2 ^ gridExp (p / q)) (Nat.mul_pos hq (pow_pos (by norm_num) _))
  have e : rnMag p q * q = rni p (q * 2 ^ gridExp (p / q)) * (q * 2 ^ gridExp (p / q)) := by
    unfold rnMag; ring
  rw [e]; exact h

theorem rnMag_scale (p q k : Nat) (hk : 0 < k) : rnMag (p * k) (q * k) = rnMag p q := by
  unfold rnMag
  rw [Nat.mul_div_mul_right p q hk, Nat.mul_right_comm q k, rni_scale _ _ _ hk]

theorem rnMag_mono_num (a b q : Nat) (hab : a ≤ b) (hb : b / q < gridBound) :
    rnMag a q ≤ rnMag b q := by
  have hdiv : a / q ≤ b / q := Nat.div_le_div_right hab
  have ha : a / q < gridBound := lt_of_le_of_lt hdiv hb
  rcases Nat.lt_trichotomy (gridExp (a / q)) (gridExp (b / q)) with hlt | heq | hgt
  · calc rnMag a q ≤ 2 ^ (gridExp (a / q) + 53) := rnMag_le_pow a q ha
      _ ≤ 2 ^ (gridExp (b / q) + 52) := Nat.pow_le_pow_right (by norm_num) (by omega)
      _ ≤ rnMag b q := rnMag_ge_pow b q hb (by omega)
  · unfold rnMag
    rw [heq]
    exact Nat.mul_le_mul_right _ (rni_mono _ _ _ hab)
  · exfalso
    have h1 := gridExp_le _ ha (by omega)
    have h2 := gridExp_lt _ hb
    have h3 : 2 ^ (gridExp (a / q) + 52) < 2 ^ (gridExp (b / q) + 53) :=
      lt_of_le_of_lt (le_trans h1 hdiv) h2
    have h4 := (Nat.pow_lt_pow_iff_right (by norm_num : 1 < 2)).mp h3
    omega

theorem rnMag_mono (p q p' q' : Nat) (hq : 0 < q) (hq' : 0 < q') (h : p * q' ≤ p' * q)
    (hb : p' / q' < gridBound) : rnMag p q ≤ rnMag p' q' := by
  rw [← rnMag_scale p q q' hq', ← rnMag_scale p' q' q hq, Nat.mul_comm q' q]
  apply rnMag_mono_num _ _ _ h
  rw [Nat.mul_comm q q', Nat.mul_div_mul_right _ _ hq]
  exact hb

theorem rnMag_exact (n : Nat) (hr : Rep n) (hn : n < gridBound) : rnMag n 1 = n := by
  obtain ⟨m, e, hm, rfl⟩ := hr
  have hdvd : 2 ^ gridExp (m * 2 ^ e) ∣ m * 2 ^ e := by
    rcases le_or_lt (gridExp (m * 2 ^ e)) e with hle | hlt
    · exact Dvd.dvd.mul_left (pow_dvd_pow 2 hle) m
    · have h1 := gridExp_le _ hn (by omega)
      have h2 : m * 2 ^ e ≤ 2 ^ (e + 53) := by
        rw [Nat.add_comm, pow_add]; exact Nat.mul_le_mul_right _ hm
      have h3 := (Nat.pow_le_pow_iff_right (by norm_num : 1 < 2)).mp (le_trans h1 h2)
      have h4 : gridExp (m * 2 ^ e) = e + 1 := by omega
      have h5 : m * 2 ^ e = 2 ^ (e + 53) := by
        apply le_antisymm h2
        rw [h4] at h1
        have : e + 1 + 52 = e + 53 := by omega
        rw [this] at h1; exact h1
      rw [h4, h5]
      exact pow_dvd_pow 2 (by omega)
  unfold rnMag
  simp only [Nat.div_one, Nat.one_mul]
  generalize gridExp (m * 2 ^ e) = E at hdvd ⊢
  obtain ⟨c, hc⟩ := hdvd
  rw [hc, Nat.mul_comm (2 ^ E) c, rni_exact c _ (pow_pos (by norm_num) _)]

theorem rnMag_exact_scaled (n q : Nat) (hq : 0 < q) (hr : Rep n) (hn : n < gridBound) :
    rnMag (n * q) q = n := by
  have := rnMag_scale n 1 q hq
  rw [Nat.one_mul] at this
  rw [this]; exact rnMag_exact n hr hn

theorem rnMag_le_of_le (p q c : Nat) (hq : 0 < q) (hc : Rep c) (hcb : c < gridBound)
    (h : p ≤ c * q) : rnMag p q ≤ c := by
  have h1 : rnMag p q ≤ rnMag (c * q) q :=
    rnMag_mono_num _ _ _ h (by rw [Nat.mul_div_cancel _ hq]; exact hcb)
  rwa [rnMag_exact_scaled c q hq hc hcb] at h1

theorem rnMag_ge_of_ge (p q c : Nat) (hq : 0 < q) (hc : Rep c) (hcb : c < gridBound)
    (hp : p / q < gridBound) (h : c * q ≤ p) : c ≤ rnMag p q := by
  have h1 : rnMag (c * q) q ≤ rnMag p q := rnMag_mono_num _ _ _ h hp
  rwa [rnMag_exact_scaled c q hq hc hcb] at h1

/-! ## Magnitudes on the grid -/

theorem one64_pos : 0 < one64 := pow_pos (by norm_num) _

theorem ovf64_pos : 0 < ovf64 := pow_pos (by norm_num) _

theorem ovf64_eq : ovf64 = 2 ^ 1024 * one64 := by
  unfold ovf64 one64; rw [← pow_add]

theorem ovf64_lt_gridBound : ovf64 < gridBound := by
  unfold ovf64 gridBound
  exact Nat.pow_lt_pow_right (by norm_num) (by norm_num)

theorem mul_one64_lt_ovf64 (n k : Nat) (hk : k ≤ 1024) (h : n < 2 ^ k) : n * one64 < ovf64 := by
  rw [ovf64_eq]
  exact Nat.mul_lt_mul_of_lt_of_le h le_rfl one64_pos |>.trans_le
    (Nat.mul_le_mul_right _ (Nat.pow_le_pow_right (by norm_num) hk))

theorem rep_of_le (n : Nat) (h : n ≤ 2 ^ 53) : Rep n := ⟨n, 0, h, by simp⟩

theorem rep_pow (k : Nat) : Rep (2 ^ k) := ⟨1, k, by norm_num, by simp⟩

theorem rep_mul_pow (n k : Nat) (h : Rep n) : Rep (n * 2 ^ k) := by
  obtain ⟨m, e, hm, rfl⟩ := h
  exact ⟨m, e + k, hm, by rw [pow_add, Nat.mul_assoc]⟩

theorem rep_mul_one64 (n : Nat) (h : Rep n) : Rep (n * one64) := rep_mul_pow n 1074 h

theorem rep_one64 : Rep one64 := rep_pow 1074

theorem one64_lt_ovf64 : one64 < ovf64 := by
  unfold one64 ovf64
  exact Nat.pow_lt_pow_right (by norm_num) (by norm_num)

theorem rep_zero : Rep 0 := ⟨0, 0, by norm_num, by simp⟩

theorem rnMag_zero (q : Nat) (hq : 0 < q) : rnMag 0 q = 0 := by
  have := rnMag_exact_scaled 0 q hq rep_zero (pow_pos (by norm_num) _)
  simpa using this

/-! ## Rounded results that stay finite -/

theorem roundNE_of_le (s : Bool) (p q c : Nat) (hq : 0 < q) (hc : Rep c) (hcb : c < ovf64)
    (h : p ≤ c * q) : roundNE s p q = .fin s (rnMag p q) ∧ rnMag p q ≤ c := by
  have h1 : rnMag p q ≤ c :=
    rnMag_le_of_le p q c hq hc (lt_trans hcb ovf64_lt_gridBound) h
  have h2 : p / q ≤ c := Nat.div_le_of_le_mul (by rw [Nat.mul_comm]; exact h)
  refine ⟨?_, h1⟩
  unfold roundNE
  rw [if_neg (by omega), if_neg (by omega)]

theorem roundNE_exact (s : Bool) (n q : Nat) (hq : 0 < q) (hr : Rep n) (hn : n < ovf64) :
    roundNE s (n * q) q = .fin s n := by
  obtain ⟨h1, _⟩ := roundNE_of_le s (n * q) q n hq hr hn le_rfl
  rw [h1, rnMag_exact_scaled n q hq hr (lt_trans hn ovf64_lt_gridBound)]

theorem ofNat_exact (n : Nat) (hr : Rep n) (hn : n < 2 ^ 1024) :
    F64.ofNat n = .fin false (n * one64) := by
  unfold F64.ofNat
  have := roundNE_exact false (n * one64) 1 (by norm_num) (rep_mul_one64 n hr)
    (mul_one64_lt_ovf64 n 1024 le_rfl hn)
  simpa using this

theorem ofInt_exact (z : Int) (hr : Rep z.natAbs) (hn : z.natAbs < 2 ^ 1024) :
    F64.ofInt z = .fin (decide (z < 0)) (z.natAbs * one64) := by
  unfold F64.ofInt
  have := roundNE_exact (decide (z < 0)) (z.natAbs * one64) 1 (by norm_num)
    (rep_mul_one64 _ hr) (mul_one64_lt_ovf64 _ 1024 le_rfl hn)
  simpa using this

theorem mul_exact (s t : Bool) (a b : Nat) (hr : Rep (a * b)) (hn : a * b < 2 ^ 1024) :
    F64.mul (.fin s (a * one64)) (.fin t (b * one64)) = .fin (xor s t) (a * b * one64) := by
  have e : a * one64 * (b * one64) = a * b * one64 * one64 := by ring
  show roundNE (xor s t) (a * one64 * (b * one64)) one64 = _
  rw [e]
  exact roundNE_exact (xor s t) (a * b * one64) one64 one64_pos (rep_mul_one64 _ hr)
    (mul_one64_lt_ovf64 _ 1024 le_rfl hn)

theorem toRat_fin_one64 (s : Bool) (n : Nat) :
    (F64.fin s (n * one64)).toRat = (if s then -1 else 1) * (n : ℚ) := by
  unfold F64.toRat one64
  push_cast
  have : (2 : ℚ) ^ 1074 ≠ 0 := pow_ne_zero _ (by norm_num)
  field_simp

/-! ## Known binary64 results -/

set_option exponentiation.threshold 5000 in
/-- The model reproduces familiar binary64 results: `1/10` is
`3602879701896397 * 2^(-55)`, `0.1 + 0.2` is `0.30000000000000004`
(`5404319552844596 * 2^(-54)`), `7/100*100` is `7.000000000000001`
(`7881299347898369 * 2^(-50)`), `float64(2^53 + 1)` is `2^53` and
`float64(2^64 - 1)` is `2^64`. -/
theorem binary64_known_values :
    F64.div (F64.ofNat 1) (F64.ofNat 10) = .fin false (3602879701896397 * 2 ^ 1019) ∧
    F64.add (F64.div (F64.ofNat 1) (F64.ofNat 10)) (F64.div (F64.ofNat 2) (F64.ofNat 10)) =
      .fin false (5404319552844596 * 2 ^ 1020) ∧
    F64.mul (F64.div (F64.ofNat 7) (F64.ofNat 100)) (F64.ofNat 100) =
      .fin false (7881299347898369 * 2 ^ 1024) ∧
    F64.ofNat (2 ^ 53 + 1) = .fin false (2 ^ 53 * one64) ∧
    F64.ofNat (2 ^ 64 - 1) = .fin false (2 ^ 64 * one64) ∧
    F64.div (F64.ofNat 1) (F64.ofNat 0) = .inf false ∧
    F64.div (F64.ofNat 0) (F64.ofNat 0) = .nan := by
  decide

/-! ## The result of `NewDf` -/

theorem NewDf_success (Statfs : StatfsCall) (mountPoint : String) (st : Statfs_t)
    (h : Statfs mountPoint Statfs_t.zero = (st, none)) :
    NewDf Statfs mountPoint =
      ({ total := F64.mul (F64.ofNat st.Blocks) (F64.ofInt st.Bsize)
         used := F64.mul (F64.ofNat ((st.Blocks + 2 ^ 64 - st.Bfree) % 2 ^ 64))
           (F64.ofInt st.Bsize)
         avail := F64.sub (F64.mul (F64.ofNat st.Blocks) (F64.ofInt st.Bsize))
           (F64.mul (F64.ofNat ((st.Blocks + 2 ^ 64 - st.Bfree) % 2 ^ 64)) (F64.ofInt st.Bsize))
         percentUsed := F64.toInt (F64.ceil (F64.mul
           (F64.div (F64.mul (F64.ofNat ((st.Blocks + 2 ^ 64 - st.Bfree) % 2 ^ 64))
             (F64.ofInt st.Bsize)) (F64.mul (F64.ofNat st.Blocks) (F64.ofInt st.Bsize)))
           (F64.ofNat 100))) }, none) := by
  unfold NewDf
  simp [h]

theorem NewDf_failure (Statfs : StatfsCall) (mountPoint : String)
    (h : (Statfs mountPoint Statfs_t.zero).2 ≠ none) :
    NewDf Statfs mountPoint = (DiskFree.zero, (Statfs mountPoint Statfs_t.zero).2) := by
  unfold NewDf
  simp [h]

theorem NewDf_congr (Statfs : StatfsCall) (mountPoint : String) (st : Statfs_t)
    (h : Statfs mountPoint Statfs_t.zero = (st, none)) :
    NewDf Statfs mountPoint = NewDf (okCall st) "/" := by
  rw [NewDf_success Statfs mountPoint st h, NewDf_success (okCall st) "/" st rfl]

/-! ## Error handling -/

/-- C4: `NewDf` returns a non-nil error exactly when the `syscall.Statfs` call
returns one; in that case the error is the one of the call, unchanged, and the
returned `DiskFree` is the zero value (all four fields zero). -/
theorem NewDf_error_iff (Statfs : StatfsCall) (mountPoint : String) :
    ((NewDf Statfs mountPoint).2 ≠ none ↔ (Statfs mountPoint Statfs_t.zero).2 ≠ none) ∧
    ((Statfs mountPoint Statfs_t.zero).2 ≠ none →
      (NewDf Statfs mountPoint).2 = (Statfs mountPoint Statfs_t.zero).2 ∧
      (NewDf Statfs mountPoint).1 = DiskFree.zero ∧
      (NewDf Statfs mountPoint).1.total = .fin false 0 ∧
      (NewDf Statfs mountPoint).1.used = .fin false 0 ∧
      (NewDf Statfs mountPoint).1.avail = .fin false 0 ∧
      (NewDf Statfs mountPoint).1.PercentUsed = 0) := by
  constructor
  · by_cases h : (Statfs mountPoint Statfs_t.zero).2 = none
    · have hs : Statfs mountPoint Statfs_t.zero = ((Statfs mountPoint Statfs_t.zero).1, none) := by
        rw [← h]
      rw [NewDf_success Statfs mountPoint _ hs]
      simp [h]
    · rw [NewDf_failure Statfs mountPoint h]
  · intro h
    rw [NewDf_failure Statfs mountPoint h]
    exact ⟨rfl, rfl, rfl, rfl, rfl, rfl⟩

/-- Witness for C4: a call failing with error code 2 on a missing path. -/
theorem NewDf_error_iff_witness :
    (NewDf (failCall 2) "/missing").2 = some 2 ∧
    (NewDf (failCall 2) "/missing").1 = DiskFree.zero ∧
    (NewDf (failCall 2) "/missing").1.total = .fin false 0 ∧
    (NewDf (failCall 2) "/missing").1.used = .fin false 0 ∧
    (NewDf (failCall 2) "/missing").1.avail = .fin false 0 ∧
    (NewDf (failCall 2) "/missing").1.PercentUsed = 0 :=
  (NewDf_error_iff (failCall 2) "/missing").2 (by decide)

/-! ## The scale constants -/

/-- C8: the scale constants are the successive powers of 1024, each positive and
within the range of `int64`. -/
theorem scale_constants :
    KB = 1024 ∧ MB = 1024 ^ 2 ∧ GB = 1024 ^ 3 ∧ TB = 1024 ^ 4 ∧ PB = 1024 ^ 5 ∧
    (0 < KB ∧ 0 < MB ∧ 0 < GB ∧ 0 < TB ∧ 0 < PB) ∧
    (KB < 2 ^ 63 ∧ MB < 2 ^ 63 ∧ GB < 2 ^ 63 ∧ TB < 2 ^ 63 ∧ PB < 2 ^ 63) := by
  simp only [PB, TB, GB, MB, KB]
  norm_num

/-! ## The worked scenario -/

set_option exponentiation.threshold 5000 in
theorem scenario_eval :
    ((NewDf (okCall ⟨1000000, 250000, 4096⟩) "/").1.Total 1 = .fin false (4096000000 * one64) ∧
     (NewDf (okCall ⟨1000000, 250000, 4096⟩) "/").1.Used 1 = .fin false (3072000000 * one64) ∧
     (NewDf (okCall ⟨1000000, 250000, 4096⟩) "/").1.Avail 1 = .fin false (1024000000 * one64) ∧
     (NewDf (okCall ⟨1000000, 250000, 4096⟩) "/").1.PercentUsed = 75) := by
  decide

/-- C5: when the system call reports 1,000,000 blocks of 4096 bytes of which
250,000 are free, the snapshot has `Total(1) = 4,096,000,000`,
`Used(1) = 3,072,000,000`, `Avail(1) = 1,024,000,000` and `PercentUsed() = 75`. -/
theorem scenario_million_blocks (Statfs : StatfsCall) (mountPoint : String)
    (h : Statfs mountPoint Statfs_t.zero = (⟨1000000, 250000, 4096⟩, none)) :
    (NewDf Statfs mountPoint).2 = none ∧
    ((NewDf Statfs mountPoint).1.Total 1).toRat = 4096000000 ∧
    ((NewDf Statfs mountPoint).1.Used 1).toRat = 3072000000 ∧
    ((NewDf Statfs mountPoint).1.Avail 1).toRat = 1024000000 ∧
    (NewDf Statfs mountPoint).1.PercentUsed = 75 := by
  rw [NewDf_congr Statfs mountPoint _ h]
  obtain ⟨h1, h2, h3, h4⟩ := scenario_eval
  rw [h1, h2, h3, h4]
  refine ⟨rfl, ?_, ?_, ?_, rfl⟩ <;> rw [toRat_fin_one64] <;> norm_num

/-- Witness for C5: the scenario with a system call that reports these numbers. -/
theorem scenario_million_blocks_witness :
    (NewDf (okCall ⟨1000000, 250000, 4096⟩) "/mnt/fs").2 = none ∧
    ((NewDf (okCall ⟨1000000, 250000, 4096⟩) "/mnt/fs").1.Total 1).toRat = 4096000000 ∧
    ((NewDf (okCall ⟨1000000, 250000, 4096⟩) "/mnt/fs").1.Used 1).toRat = 3072000000 ∧
    ((NewDf (okCall ⟨1000000, 250000, 4096⟩) "/mnt/fs").1.Avail 1).toRat = 1024000000 ∧
    (NewDf (okCall ⟨1000000, 250000, 4096⟩) "/mnt/fs").1.PercentUsed = 75 :=
  scenario_million_blocks (okCall ⟨1000000, 250000, 4096⟩) "/mnt/fs" rfl

/-! ## The scaled accessors -/

theorem ofInt_one : F64.ofInt 1 = .fin false one64 := by
  have := ofInt_exact 1 (rep_of_le _ (by norm_num)) (by norm_num)
  simpa using this

theorem div_one (x : F64) (hx : x.Valid) : F64.div x (F64.ofInt 1) = x := by
  rw [ofInt_one]
  cases x with
  | nan => rfl
  | inf s => simp [F64.div]
  | fin s a =>
    obtain ⟨hr, hn⟩ := hx
    have h0 : one64 ≠ 0 := Nat.pos_iff_ne_zero.mp one64_pos
    simp only [F64.div, h0, if_false, Bool.xor_false]
    exact roundNE_exact s a one64 one64_pos hr hn

/-! ## Exact products -/

theorem wrap_sub (B F : Nat) (hF : F ≤ B) (hB : B < 2 ^ 64) :
    (B + 2 ^ 64 - F) % 2 ^ 64 = B - F := by
  omega

theorem prod_lt (a b : Nat) (ha : a < 2 ^ 64) (hb : b ≤ 2 ^ 63) : a * b < 2 ^ 1024 := by
  calc a * b ≤ 2 ^ 64 * 2 ^ 63 := Nat.mul_le_mul (le_of_lt ha) hb
    _ = 2 ^ 127 := by rw [← pow_add]
    _ < 2 ^ 1024 := Nat.pow_lt_pow_right (by norm_num) (by norm_num)

theorem sign_mul_natAbs (z : Int) :
    (if decide (z < 0) = true then (-1 : ℚ) else 1) * (z.natAbs : ℚ) = (z : ℚ) := by
  have hc : ((z.natAbs : Int) : ℚ) = (z.natAbs : ℚ) := Int.cast_natCast _
  by_cases hz : z < 0
  · have h1 : (z.natAbs : Int) = -z := by omega
    simp only [hz, decide_True, if_true]
    rw [← hc, h1]; push_cast; ring
  · have h1 : (z.natAbs : Int) = z := by omega
    simp only [hz, decide_False, if_false, Bool.false_eq_true]
    rw [← hc, h1]; ring

theorem fields_exact (B F : Nat) (S : Int) (hF : F ≤ B) (hB : B < 2 ^ 64)
    (hS : S.natAbs ≤ 2 ^ 63) (r1 : Rep B) (r2 : Rep (B - F)) (r3 : Rep S.natAbs)
    (r4 : Rep (B * S.natAbs)) (r5 : Rep ((B - F) * S.natAbs)) :
    F64.mul (F64.ofNat B) (F64.ofInt S) = .fin (decide (S < 0)) (B * S.natAbs * one64) ∧
    F64.mul (F64.ofNat ((B + 2 ^ 64 - F) % 2 ^ 64)) (F64.ofInt S) =
      .fin (decide (S < 0)) ((B - F) * S.natAbs * one64) := by
  have hBF : B - F < 2 ^ 64 := lt_of_le_of_lt (Nat.sub_le _ _) hB
  have h64 : (2 : Nat) ^ 64 < 2 ^ 1024 := Nat.pow_lt_pow_right (by norm_num) (by norm_num)
  have h63 : (2 : Nat) ^ 63 < 2 ^ 1024 := Nat.pow_lt_pow_right (by norm_num) (by norm_num)
  rw [wrap_sub B F hF hB, ofNat_exact B r1 (lt_trans hB h64),
    ofNat_exact (B - F) r2 (lt_trans hBF h64), ofInt_exact S r3 (lt_of_le_of_lt hS h63),
    mul_exact _ _ _ _ r4 (prod_lt _ _ hB hS), mul_exact _ _ _ _ r5 (prod_lt _ _ hBF hS)]
  simp

/-- C1 (amended): when the block counts `B` and `B - F`, the block size `S` and
the two products `B * S` and `(B - F) * S` are each an integer with a 53-bit
significand (`m * 2^e`, `m ≤ 2^53`: all integers up to `2^53`, and the binary64
integers above), the snapshot holds `total = B * S` and `used = (B - F) * S`
exactly, also when the products exceed the 64-bit integer range. -/
theorem products_exact (Statfs : StatfsCall) (mountPoint : String) (st : Statfs_t)
    (h : Statfs mountPoint Statfs_t.zero = (st, none))
    (hF : st.Bfree ≤ st.Blocks) (hB : st.Blocks < 2 ^ 64) (hS : st.Bsize.natAbs ≤ 2 ^ 63)
    (r1 : Rep st.Blocks) (r2 : Rep (st.Blocks - st.Bfree)) (r3 : Rep st.Bsize.natAbs)
    (r4 : Rep (st.Blocks * st.Bsize.natAbs))
    (r5 : Rep ((st.Blocks - st.Bfree) * st.Bsize.natAbs)) :
    (NewDf Statfs mountPoint).1.total.isFinite = true ∧
    (NewDf Statfs mountPoint).1.used.isFinite = true ∧
    (NewDf Statfs mountPoint).1.total.toRat = (st.Blocks : ℚ) * (st.Bsize : ℚ) ∧
    (NewDf Statfs mountPoint).1.used.toRat =
      ((st.Blocks : ℚ) - (st.Bfree : ℚ)) * (st.Bsize : ℚ) := by
  obtain ⟨hT, hU⟩ := fields_exact st.Blocks st.Bfree st.Bsize hF hB hS r1 r2 r3 r4 r5
  rw [NewDf_success Statfs mountPoint st h]
  simp only [hT, hU]
  refine ⟨rfl, rfl, ?_, ?_⟩
  · rw [toRat_fin_one64]
    push_cast
    rw [← sign_mul_natAbs st.Bsize]; ring
  · rw [toRat_fin_one64]
    push_cast [Nat.cast_sub hF]
    rw [← sign_mul_natAbs st.Bsize]; ring

/-- Witness for C1 (amended): `2^40` blocks of `2^40` bytes, half of them free;
the total `2^80` is beyond the 64-bit range. -/
theorem products_exact_witness :
    (NewDf (okCall ⟨2 ^ 40, 2 ^ 39, 2 ^ 40⟩) "/").1.total.isFinite = true ∧
    (NewDf (okCall ⟨2 ^ 40, 2 ^ 39, 2 ^ 40⟩) "/").1.used.isFinite = true ∧
    (NewDf (okCall ⟨2 ^ 40, 2 ^ 39, 2 ^ 40⟩) "/").1.total.toRat =
      (((2 ^ 40 : Nat) : ℚ)) * (((2 ^ 40 : Int) : ℚ)) ∧
    (NewDf (okCall ⟨2 ^ 40, 2 ^ 39, 2 ^ 40⟩) "/").1.used.toRat =
      (((2 ^ 40 : Nat) : ℚ) - ((2 ^ 39 : Nat) : ℚ)) * (((2 ^ 40 : Int) : ℚ)) :=
  products_exact (okCall ⟨2 ^ 40, 2 ^ 39, 2 ^ 40⟩) "/" ⟨2 ^ 40, 2 ^ 39, 2 ^ 40⟩ rfl
    (by norm_num) (by norm_num) (by norm_num)
    ⟨1, 40, by norm_num, by norm_num⟩ ⟨1, 39, by norm_num, by norm_num⟩
    ⟨1, 40, by norm_num, by norm_num⟩ ⟨1, 80, by norm_num, by norm_num⟩
    ⟨1, 79, by norm_num, by norm_num⟩

set_option exponentiation.threshold 5000 in
theorem rounded_total_eval :
    (NewDf (okCall ⟨2 ^ 53 + 1, 0, 1⟩) "/").2 = none ∧
    (NewDf (okCall ⟨2 ^ 53 + 1, 0, 1⟩) "/").1.total = .fin false (2 ^ 53 * one64) := by
  decide

/-- C1 refuted as stated: with `B = 2^53 + 1` blocks of one byte (none free) the
query succeeds and the snapshot's total is `2^53`, not the product `B * S`. -/
theorem products_exact_counterexample :
    (NewDf (okCall ⟨2 ^ 53 + 1, 0, 1⟩) "/").2 = none ∧
    (NewDf (okCall ⟨2 ^ 53 + 1, 0, 1⟩) "/").1.total.toRat = 2 ^ 53 ∧
    ¬ ((NewDf (okCall ⟨2 ^ 53 + 1, 0, 1⟩) "/").1.total.toRat =
      ((2 ^ 53 + 1 : Nat) : ℚ) * ((1 : Int) : ℚ)) := by
  obtain ⟨h1, h2⟩ := rounded_total_eval
  rw [h1, h2, toRat_fin_one64]
  norm_num

/-! ## Integer conversions and the available space -/

theorem ofNat_fin (n : Nat) (hn : n ≤ 2 ^ 64) :
    F64.ofNat n = .fin false (rnMag (n * one64) 1) ∧ rnMag (n * one64) 1 ≤ 2 ^ 64 * one64 := by
  unfold F64.ofNat
  refine roundNE_of_le false (n * one64) 1 (2 ^ 64 * one64) (by norm_num)
    (rep_mul_one64 _ (rep_pow 64))
    (mul_one64_lt_ovf64 _ 65 (by norm_num) (Nat.pow_lt_pow_right (by norm_num) (by norm_num))) ?_
  rw [Nat.mul_one]
  exact Nat.mul_le_mul_right _ hn

theorem ofInt_fin (z : Int) (hz : z.natAbs ≤ 2 ^ 63) :
    F64.ofInt z = .fin (decide (z < 0)) (rnMag (z.natAbs * one64) 1) ∧
    rnMag (z.natAbs * one64) 1 ≤ 2 ^ 63 * one64 := by
  unfold F64.ofInt
  refine roundNE_of_le _ (z.natAbs * one64) 1 (2 ^ 63 * one64) (by norm_num)
    (rep_mul_one64 _ (rep_pow 63))
    (mul_one64_lt_ovf64 _ 64 (by norm_num) (Nat.pow_lt_pow_right (by norm_num) (by norm_num))) ?_
  rw [Nat.mul_one]
  exact Nat.mul_le_mul_right _ hz

theorem rnMag_int_zero : rnMag (0 * one64) 1 = 0 := by
  rw [Nat.zero_mul]; exact rnMag_zero 1 (by norm_num)

theorem mul_fin_zero (s t : Bool) (a b : Nat) (h : a * b = 0) :
    F64.mul (.fin s a) (.fin t b) = .fin (xor s t) 0 := by
  show roundNE (xor s t) (a * b) one64 = _
  rw [h]
  have := roundNE_exact (xor s t) 0 one64 one64_pos rep_zero ovf64_pos
  rw [Nat.zero_mul] at this
  exact this

theorem mul_conv_zero (n : Nat) (S : Int) (hn : n ≤ 2 ^ 64) (hS : S.natAbs ≤ 2 ^ 63)
    (h : n * S.natAbs = 0) :
    F64.mul (F64.ofNat n) (F64.ofInt S) = .fin (decide (S < 0)) (n * S.natAbs * one64) := by
  rw [(ofNat_fin n hn).1, (ofInt_fin S hS).1, h, Nat.zero_mul]
  have := mul_fin_zero false (decide (S < 0)) (rnMag (n * one64) 1)
    (rnMag (S.natAbs * one64) 1) (by
      rcases Nat.mul_eq_zero.mp h with h0 | h0
      · rw [h0, rnMag_int_zero, Nat.zero_mul]
      · rw [h0, rnMag_int_zero, Nat.mul_zero])
  simpa using this

theorem fields_exact_small (B F : Nat) (S : Int) (hF : F ≤ B) (hB : B < 2 ^ 64)
    (hS : S.natAbs ≤ 2 ^ 63) (hBS : B * S.natAbs ≤ 2 ^ 53) :
    F64.mul (F64.ofNat B) (F64.ofInt S) = .fin (decide (S < 0)) (B * S.natAbs * one64) ∧
    F64.mul (F64.ofNat ((B + 2 ^ 64 - F) % 2 ^ 64)) (F64.ofInt S) =
      .fin (decide (S < 0)) ((B - F) * S.natAbs * one64) := by
  have hle : (B - F) * S.natAbs ≤ B * S.natAbs := Nat.mul_le_mul_right _ (Nat.sub_le _ _)
  rcases Nat.eq_zero_or_pos (B * S.natAbs) with h0 | hpos
  · have h0' : (B - F) * S.natAbs = 0 := by omega
    rw [wrap_sub B F hF hB]
    exact ⟨mul_conv_zero B S (le_of_lt hB) hS h0,
      mul_conv_zero (B - F) S (le_trans (Nat.sub_le _ _) (le_of_lt hB)) hS h0'⟩
  · have hBpos : 0 < B := Nat.pos_of_mul_pos_right hpos
    have hSpos : 0 < S.natAbs := Nat.pos_of_mul_pos_left hpos
    have hB53 : B ≤ 2 ^ 53 := le_trans (Nat.le_mul_of_pos_right _ hSpos) hBS
    have hS53 : S.natAbs ≤ 2 ^ 53 := le_trans (Nat.le_mul_of_pos_left _ hBpos) hBS
    exact fields_exact B F S hF hB hS (rep_of_le _ hB53)
      (rep_of_le _ (le_trans (Nat.sub_le _ _) hB53)) (rep_of_le _ hS53) (rep_of_le _ hBS)
      (rep_of_le _ (le_trans hle hBS))

theorem sub_same_sign (sg : Bool) (a b : Nat) (hba : b ≤ a) :
    F64.sub (.fin sg a) (.fin sg b) =
      if a = b then .fin false 0 else roundNE sg (a - b) 1 := by
  have hlt : a ≠ b → b < a := fun hne => lt_of_le_of_ne hba (Ne.symm hne)
  cases sg <;> simp only [F64.sub, F64.neg, F64.add] <;> split_ifs <;> simp_all

theorem sub_exact (sg : Bool) (a b : Nat) (hba : b ≤ a) (hr : Rep (a - b))
    (hn : a - b < 2 ^ 1024) :
    F64.sub (.fin sg (a * one64)) (.fin sg (b * one64)) =
      .fin (if a = b then false else sg) ((a - b) * one64) := by
  rw [sub_same_sign sg _ _ (Nat.mul_le_mul_right _ hba)]
  have h1 : a * one64 = b * one64 ↔ a = b :=
    ⟨fun h => Nat.eq_of_mul_eq_mul_right one64_pos h, fun h => by rw [h]⟩
  by_cases hab : a = b
  · simp [hab]
  · rw [if_neg (fun h => hab (h1.mp h)), if_neg hab, ← Nat.sub_mul]
    have := roundNE_exact sg ((a - b) * one64) 1 (by norm_num) (rep_mul_one64 _ hr)
      (mul_one64_lt_ovf64 _ 1024 le_rfl hn)
    simpa using this

/-- C10 (amended): when `F ≤ B` and either the capacity `B * |S|` is zero or the
block counts `B` and `B - F`, the block size `|S|` and the three products
`B * |S|`, `(B - F) * |S|` and `F * |S|` are each an integer with a 53-bit
significand (`m * 2^e`, `m ≤ 2^53`; in particular whenever `B * |S| ≤ 2^53`, and
for power-of-two block sizes whenever `B ≤ 2^53`), the avail field of the
snapshot equals `F * S` exactly, although it is computed as `total - used`. -/
theorem avail_exact (Statfs : StatfsCall) (mountPoint : String) (st : Statfs_t)
    (h : Statfs mountPoint Statfs_t.zero = (st, none))
    (hF : st.Bfree ≤ st.Blocks) (hB : st.Blocks < 2 ^ 64) (hS : st.Bsize.natAbs ≤ 2 ^ 63)
    (hrep : st.Blocks * st.Bsize.natAbs = 0 ∨
      (Rep st.Blocks ∧ Rep (st.Blocks - st.Bfree) ∧ Rep st.Bsize.natAbs ∧
        Rep (st.Blocks * st.Bsize.natAbs) ∧
        Rep ((st.Blocks - st.Bfree) * st.Bsize.natAbs) ∧
        Rep (st.Bfree * st.Bsize.natAbs))) :
    (NewDf Statfs mountPoint).1.avail.isFinite = true ∧
    (NewDf Statfs mountPoint).1.avail.toRat = (st.Bfree : ℚ) * (st.Bsize : ℚ) := by
  have hle : (st.Blocks - st.Bfree) * st.Bsize.natAbs ≤ st.Blocks * st.Bsize.natAbs :=
    Nat.mul_le_mul_right _ (Nat.sub_le _ _)
  have hFle : st.Bfree * st.Bsize.natAbs ≤ st.Blocks * st.Bsize.natAbs :=
    Nat.mul_le_mul_right _ hF
  have hsub : st.Blocks * st.Bsize.natAbs - (st.Blocks - st.Bfree) * st.Bsize.natAbs =
      st.Bfree * st.Bsize.natAbs := by
    rw [← Nat.sub_mul, Nat.sub_sub_self hF]
  have hfields : (F64.mul (F64.ofNat st.Blocks) (F64.ofInt st.Bsize) =
        .fin (decide (st.Bsize < 0)) (st.Blocks * st.Bsize.natAbs * one64) ∧
      F64.mul (F64.ofNat ((st.Blocks + 2 ^ 64 - st.Bfree) % 2 ^ 64)) (F64.ofInt st.Bsize) =
        .fin (decide (st.Bsize < 0)) ((st.Blocks - st.Bfree) * st.Bsize.natAbs * one64)) ∧
      Rep (st.Bfree * st.Bsize.natAbs) := by
    rcases hrep with h0 | ⟨r1, r2, r3, r4, r5, r6⟩
    · refine ⟨fields_exact_small st.Blocks st.Bfree st.Bsize hF hB hS (by rw [h0]; norm_num), ?_⟩
      have : st.Bfree * st.Bsize.natAbs = 0 := by omega
      rw [this]; exact rep_zero
    · exact ⟨fields_exact st.Blocks st.Bfree st.Bsize hF hB hS r1 r2 r3 r4 r5, r6⟩
  obtain ⟨⟨hT, hU⟩, r6⟩ := hfields
  have hA := sub_exact (decide (st.Bsize < 0)) _ _ hle (by rw [hsub]; exact r6)
    (by rw [hsub]; exact lt_of_le_of_lt hFle (prod_lt _ _ hB hS))
  rw [NewDf_success Statfs mountPoint st h]
  simp only [hT, hU, hA, hsub]
  refine ⟨rfl, ?_⟩
  rw [toRat_fin_one64]
  by_cases heq : st.Blocks * st.Bsize.natAbs = (st.Blocks - st.Bfree) * st.Bsize.natAbs
  · have h0 : st.Bfree * st.Bsize.natAbs = 0 := by omega
    rw [if_pos heq, h0]
    rcases Nat.mul_eq_zero.mp h0 with hz | hz
    · simp [hz]
    · simp [Int.natAbs_eq_zero.mp hz]
  · rw [if_neg heq, ← sign_mul_natAbs st.Bsize]
    push_cast
    ring

/-- Witness for C10 (amended): `2^42` blocks of 4096 bytes, 987,654,321 of them
free; the capacity `2^54` is above `2^53`. -/
theorem avail_exact_witness :
    (NewDf (okCall ⟨2 ^ 42, 987654321, 4096⟩) "/").1.avail.isFinite = true ∧
    (NewDf (okCall ⟨2 ^ 42, 987654321, 4096⟩) "/").1.avail.toRat =
      ((987654321 : Nat) : ℚ) * ((4096 : Int) : ℚ) :=
  avail_exact (okCall ⟨2 ^ 42, 987654321, 4096⟩) "/" ⟨2 ^ 42, 987654321, 4096⟩ rfl
    (by norm_num) (by norm_num) (by norm_num)
    (Or.inr ⟨⟨1, 42, by norm_num, by norm_num⟩,
      ⟨2 ^ 42 - 987654321, 0, by norm_num, by norm_num⟩,
      ⟨1, 12, by norm_num, by norm_num⟩,
      ⟨1, 54, by norm_num, by norm_num⟩,
      ⟨2 ^ 42 - 987654321, 12, by norm_num, by norm_num⟩,
      ⟨987654321, 12, by norm_num, by norm_num⟩⟩)

set_option exponentiation.threshold 5000 in
theorem rounded_avail_eval :
    (NewDf (okCall ⟨2 ^ 53 + 2, 1, 1⟩) "/").2 = none ∧
    (NewDf (okCall ⟨2 ^ 53 + 2, 1, 1⟩) "/").1.avail = .fin false (2 * one64) := by
  decide

/-- C10 refuted as stated: with `B = 2^53 + 2` blocks of one byte and `F = 1`
free block the query succeeds and the avail field is `2`, not `F * S = 1`. -/
theorem avail_exact_counterexample :
    (NewDf (okCall ⟨2 ^ 53 + 2, 1, 1⟩) "/").2 = none ∧
    (1 : Nat) ≤ 2 ^ 53 + 2 ∧
    (NewDf (okCall ⟨2 ^ 53 + 2, 1, 1⟩) "/").1.avail.toRat = 2 ∧
    ¬ ((NewDf (okCall ⟨2 ^ 53 + 2, 1, 1⟩) "/").1.avail.toRat =
      ((1 : Nat) : ℚ) * ((1 : Int) : ℚ)) := by
  obtain ⟨h1, h2⟩ := rounded_avail_eval
  rw [h1, h2, toRat_fin_one64]
  norm_num

/-! ## The percentage -/

set_option exponentiation.threshold 5000 in
theorem percent_eval :
    (NewDf (okCall ⟨1000000, 930000, 4096⟩) "/").2 = none ∧
    (NewDf (okCall ⟨1000000, 930000, 4096⟩) "/").1.total = .fin false (4096000000 * one64) ∧
    (NewDf (okCall ⟨1000000, 930000, 4096⟩) "/").1.used = .fin false (286720000 * one64) ∧
    (NewDf (okCall ⟨1000000, 930000, 4096⟩) "/").1.PercentUsed = 8 ∧
    (NewDf (okCall ⟨1000, 667, 1⟩) "/").1.total = .fin false (1000 * one64) ∧
    (NewDf (okCall ⟨1000, 667, 1⟩) "/").1.used = .fin false (333 * one64) ∧
    (NewDf (okCall ⟨1000, 667, 1⟩) "/").1.PercentUsed = 34 := by
  decide

/-- C2 fails on the code: with 1,000,000 blocks of 4096 bytes of which 930,000
are free, `total = 4,096,000,000` and `used = 286,720,000` (exactly 7 percent),
so that `7 * total ≥ 100 * used`, and yet `PercentUsed()` is 8.  The example of
the claim (`total = 1000`, `used = 333`) does give 34. -/
theorem percentUsed_not_ceiling :
    (NewDf (okCall ⟨1000000, 930000, 4096⟩) "/").2 = none ∧
    (NewDf (okCall ⟨1000000, 930000, 4096⟩) "/").1.total.toRat = 4096000000 ∧
    (NewDf (okCall ⟨1000000, 930000, 4096⟩) "/").1.used.toRat = 286720000 ∧
    (7 : ℚ) * (NewDf (okCall ⟨1000000, 930000, 4096⟩) "/").1.total.toRat ≥
      100 * (NewDf (okCall ⟨1000000, 930000, 4096⟩) "/").1.used.toRat ∧
    (NewDf (okCall ⟨1000000, 930000, 4096⟩) "/").1.PercentUsed = 8 ∧
    (NewDf (okCall ⟨1000, 667, 1⟩) "/").1.total.toRat = 1000 ∧
    (NewDf (okCall ⟨1000, 667, 1⟩) "/").1.used.toRat = 333 ∧
    (NewDf (okCall ⟨1000, 667, 1⟩) "/").1.PercentUsed = 34 := by
  obtain ⟨h1, h2, h3, h4, h5, h6, h7⟩ := percent_eval
  rw [h1, h2, h3, h4, h5, h6, h7]
  simp only [toRat_fin_one64]
  norm_num

theorem toInt_small (n k : Nat) (h : n / one64 = k) (hk : k ≤ 100) :
    F64.toInt (.fin false n) = (k : Int) := by
  unfold F64.toInt
  simp only [h, Bool.false_eq_true, if_false]
  have h1 : (-(2 : Int) ^ 63 ≤ (k : Int) ∧ (k : Int) < (2 : Int) ^ 63) := by
    constructor <;> omega
  rw [if_pos h1]

theorem percent_of_le (U T : Nat) (hT : 0 < T) (hUT : U ≤ T) :
    ∃ k : Nat, k ≤ 100 ∧
      F64.toInt (F64.ceil (F64.mul (F64.div (.fin false U) (.fin false T)) (F64.ofNat 100))) =
        (k : Int) := by
  have hT0 : T ≠ 0 := Nat.pos_iff_ne_zero.mp hT
  obtain ⟨hR, hRle⟩ := roundNE_of_le false (U * one64) T one64 hT
    rep_one64 one64_lt_ovf64
    (by rw [Nat.mul_comm]; exact Nat.mul_le_mul_left _ hUT)
  have h100 : F64.ofNat 100 = .fin false (100 * one64) :=
    ofNat_exact 100 (rep_of_le _ (by norm_num))
      (lt_trans (by norm_num : (100 : Nat) < 2 ^ 7) (Nat.pow_lt_pow_right (by norm_num) (by norm_num)))
  obtain ⟨hP, hPle⟩ := roundNE_of_le false (rnMag (U * one64) T * (100 * one64)) one64
    (100 * one64) one64_pos (rep_mul_one64 100 (rep_of_le _ (by norm_num)))
    (mul_one64_lt_ovf64 100 7 (by norm_num) (by norm_num))
    (by rw [Nat.mul_comm]; exact Nat.mul_le_mul_left _ hRle)
  have hdiv : F64.div (.fin false U) (.fin false T) = .fin false (rnMag (U * one64) T) := by
    simp only [F64.div, hT0, if_false, Bool.xor_false]
    exact hR
  have hmul : F64.mul (.fin false (rnMag (U * one64) T)) (.fin false (100 * one64)) =
      .fin false (rnMag (rnMag (U * one64) T * (100 * one64)) one64) := by
    simp only [F64.mul, Bool.xor_false]
    exact hP
  rw [hdiv, h100, hmul]
  generalize rnMag (rnMag (U * one64) T * (100 * one64)) one64 = P at hPle ⊢
  refine ⟨(P + (one64 - 1)) / one64, ?_, ?_⟩
  · have hpos := one64_pos
    have : (P + (one64 - 1)) / one64 < 101 := by
      rw [Nat.div_lt_iff_lt_mul one64_pos]; omega
    omega
  · have hpos := one64_pos
    have hlt : (P + (one64 - 1)) / one64 < 101 := by
      rw [Nat.div_lt_iff_lt_mul one64_pos]; omega
    exact toInt_small _ _ (Nat.mul_div_cancel _ one64_pos) (by omega)

/-! ## Magnitude of the rounded products -/

theorem int_lt_gridBound (n k : Nat) (hk : k < 1024) (hn : n ≤ 2 ^ k) :
    n * one64 / 1 < gridBound := by
  rw [Nat.div_one]
  exact lt_trans (mul_one64_lt_ovf64 n (k + 1) (by omega)
    (lt_of_le_of_lt hn (Nat.pow_lt_pow_right (by norm_num) (by omega)))) ovf64_lt_gridBound

theorem rnMag_int_ge (n k : Nat) (hk : k < 1024) (h0 : 0 < n) (hn : n ≤ 2 ^ k) :
    one64 ≤ rnMag (n * one64) 1 := by
  refine rnMag_ge_of_ge _ 1 one64 (by norm_num) rep_one64
    (lt_trans one64_lt_ovf64 ovf64_lt_gridBound) (int_lt_gridBound n k hk hn) ?_
  rw [Nat.mul_one]
  exact Nat.le_mul_of_pos_left _ h0

theorem rnMag_int_mono (m n k : Nat) (hk : k < 1024) (hmn : m ≤ n) (hn : n ≤ 2 ^ k) :
    rnMag (m * one64) 1 ≤ rnMag (n * one64) 1 :=
  rnMag_mono_num _ _ 1 (Nat.mul_le_mul_right _ hmn) (int_lt_gridBound n k hk hn)

theorem prod_arg_le (n : Nat) (S : Int) (hn : n ≤ 2 ^ 64) (hS : S.natAbs ≤ 2 ^ 63) :
    rnMag (n * one64) 1 * rnMag (S.natAbs * one64) 1 ≤ 2 ^ 127 * one64 * one64 := by
  have h1 := (ofNat_fin n hn).2
  have h2 := (ofInt_fin S hS).2
  calc rnMag (n * one64) 1 * rnMag (S.natAbs * one64) 1
      ≤ 2 ^ 64 * one64 * (2 ^ 63 * one64) := Nat.mul_le_mul h1 h2
    _ = 2 ^ 127 * one64 * one64 := by
      rw [show (2 : Nat) ^ 127 = 2 ^ 64 * 2 ^ 63 by rw [← pow_add]]; ring

theorem prod_bound_lt : 2 ^ 127 * one64 < ovf64 :=
  mul_one64_lt_ovf64 _ 128 (by norm_num) (Nat.pow_lt_pow_right (by norm_num) (by norm_num))

theorem conv_mul (n : Nat) (S : Int) (hn : n ≤ 2 ^ 64) (hS : S.natAbs ≤ 2 ^ 63) :
    F64.mul (F64.ofNat n) (F64.ofInt S) = .fin (decide (S < 0)) (prodMag n S) ∧
    prodMag n S ≤ 2 ^ 127 * one64 := by
  rw [(ofNat_fin n hn).1, (ofInt_fin S hS).1]
  have := roundNE_of_le (xor false (decide (S < 0)))
    (rnMag (n * one64) 1 * rnMag (S.natAbs * one64) 1) one64 (2 ^ 127 * one64) one64_pos
    (rep_mul_one64 _ (rep_pow 127)) prod_bound_lt (prod_arg_le n S hn hS)
  simp only [Bool.false_xor] at this
  unfold prodMag
  simp only [F64.mul, Bool.false_xor]
  exact this

theorem prod_quot_lt (n : Nat) (S : Int) (hn : n ≤ 2 ^ 64) (hS : S.natAbs ≤ 2 ^ 63) :
    rnMag (n * one64) 1 * rnMag (S.natAbs * one64) 1 / one64 < gridBound := by
  have h := prod_arg_le n S hn hS
  have h2 : rnMag (n * one64) 1 * rnMag (S.natAbs * one64) 1 / one64 ≤ 2 ^ 127 * one64 :=
    Nat.div_le_of_le_mul (by rw [Nat.mul_comm one64]; exact h)
  exact lt_of_le_of_lt h2 (lt_trans prod_bound_lt ovf64_lt_gridBound)

theorem prodMag_mono (m n : Nat) (S : Int) (hmn : m ≤ n) (hn : n ≤ 2 ^ 64)
    (hS : S.natAbs ≤ 2 ^ 63) : prodMag m S ≤ prodMag n S :=
  rnMag_mono_num _ _ one64
    (Nat.mul_le_mul_right _ (rnMag_int_mono m n 64 (by norm_num) hmn hn))
    (prod_quot_lt n S hn hS)

theorem prodMag_ge (n : Nat) (S : Int) (h0 : 0 < n) (hn : n ≤ 2 ^ 64) (hS0 : S ≠ 0)
    (hS : S.natAbs ≤ 2 ^ 63) : one64 ≤ prodMag n S :=
  rnMag_ge_of_ge _ one64 one64 one64_pos rep_one64
    (lt_trans one64_lt_ovf64 ovf64_lt_gridBound) (prod_quot_lt n S hn hS)
    (Nat.mul_le_mul (rnMag_int_ge n 64 (by norm_num) h0 hn)
      (rnMag_int_ge S.natAbs 63 (by norm_num) (Int.natAbs_pos.mpr hS0) hS))

theorem toRat_fin_false (n : Nat) : (F64.fin false n).toRat = (n : ℚ) / (2 : ℚ) ^ 1074 := by
  simp [F64.toRat]

/-- C9: for a successful query reporting `B > 0` blocks, `F ≤ B` free blocks and
a block size `S > 0` (values of their machine types), the snapshot satisfies
`0 ≤ PercentUsed() ≤ 100` and `0 ≤ used ≤ total`, the three being finite. -/
theorem percent_bounds (Statfs : StatfsCall) (mountPoint : String) (st : Statfs_t)
    (h : Statfs mountPoint Statfs_t.zero = (st, none))
    (hB0 : 0 < st.Blocks) (hB : st.Blocks < 2 ^ 64) (hF : st.Bfree ≤ st.Blocks)
    (hS0 : 0 < st.Bsize) (hS : st.Bsize < 2 ^ 63) :
    0 ≤ (NewDf Statfs mountPoint).1.PercentUsed ∧
    (NewDf Statfs mountPoint).1.PercentUsed ≤ 100 ∧
    (NewDf Statfs mountPoint).1.used.isFinite = true ∧
    (NewDf Statfs mountPoint).1.total.isFinite = true ∧
    0 ≤ (NewDf Statfs mountPoint).1.used.toRat ∧
    (NewDf Statfs mountPoint).1.used.toRat ≤ (NewDf Statfs mountPoint).1.total.toRat := by
  have hSa : st.Bsize.natAbs ≤ 2 ^ 63 := by omega
  have hBF : st.Blocks - st.Bfree ≤ 2 ^ 64 := le_trans (Nat.sub_le _ _) (le_of_lt hB)
  have hsg : decide (st.Bsize < 0) = false := decide_eq_false (by omega)
  have hT := (conv_mul st.Blocks st.Bsize (le_of_lt hB) hSa).1
  have hU := (conv_mul (st.Blocks - st.Bfree) st.Bsize hBF hSa).1
  rw [hsg] at hT hU
  have hUT : prodMag (st.Blocks - st.Bfree) st.Bsize ≤ prodMag st.Blocks st.Bsize :=
    prodMag_mono _ _ _ (Nat.sub_le _ _) (le_of_lt hB) hSa
  have hTpos : 0 < prodMag st.Blocks st.Bsize :=
    lt_of_lt_of_le one64_pos (prodMag_ge _ _ hB0 (le_of_lt hB) (by omega) hSa)
  obtain ⟨k, hk, hpct⟩ := percent_of_le _ _ hTpos hUT
  rw [NewDf_success Statfs mountPoint st h]
  simp only [DiskFree.PercentUsed, wrap_sub _ _ hF hB, hT, hU, hpct, toRat_fin_false]
  have h2 : (0 : ℚ) ≤ (2 : ℚ) ^ 1074 := pow_nonneg (by norm_num) _
  refine ⟨by omega, by omega, rfl, rfl, div_nonneg (Nat.cast_nonneg _) h2, ?_⟩
  exact div_le_div_of_nonneg_right (Nat.cast_le.mpr hUT) h2

/-- Witness for C9: a million blocks of 4096 bytes, 930,000 of them free. -/
theorem percent_bounds_witness :
    0 ≤ (NewDf (okCall ⟨1000000, 930000, 4096⟩) "/").1.PercentUsed ∧
    (NewDf (okCall ⟨1000000, 930000, 4096⟩) "/").1.PercentUsed ≤ 100 ∧
    (NewDf (okCall ⟨1000000, 930000, 4096⟩) "/").1.used.isFinite = true ∧
    (NewDf (okCall ⟨1000000, 930000, 4096⟩) "/").1.total.isFinite = true ∧
    0 ≤ (NewDf (okCall ⟨1000000, 930000, 4096⟩) "/").1.used.toRat ∧
    (NewDf (okCall ⟨1000000, 930000, 4096⟩) "/").1.used.toRat ≤
      (NewDf (okCall ⟨1000000, 930000, 4096⟩) "/").1.total.toRat :=
  percent_bounds (okCall ⟨1000000, 930000, 4096⟩) "/" ⟨1000000, 930000, 4096⟩ rfl
    (by norm_num) (by norm_num) (by norm_num) (by norm_num) (by norm_num)

/-! ## Coarse magnitudes: the fields of a snapshot -/

theorem grid_zero (k : Nat) : Grid k 0 := ⟨0, k, by norm_num, le_rfl, by simp⟩

theorem grid_rep (k n : Nat) (h : Grid k n) : Rep n := by
  obtain ⟨m, e, hm, _, hn⟩ := h
  exact ⟨m, e, hm, hn⟩

theorem grid_dvd (k n : Nat) (h : Grid k n) : 2 ^ k ∣ n := by
  obtain ⟨m, e, _, hk, rfl⟩ := h
  exact Dvd.dvd.mul_left (pow_dvd_pow 2 hk) m

theorem grid_rnMag (p q k : Nat) (hp : p / q < gridBound) (h : 2 ^ (k + 52) ≤ p / q) :
    Grid k (rnMag p q) := by
  have h1 := gridExp_lt _ hp
  have h2 := (Nat.pow_lt_pow_iff_right (by norm_num : 1 < 2)).mp (lt_of_le_of_lt h h1)
  refine ⟨rni p (q * 2 ^ gridExp (p / q)), gridExp (p / q), ?_, by omega, rfl⟩
  have h3 := rni_le p (q * 2 ^ gridExp (p / q))
  have h4 := rnMag_quot_lt p q hp
  omega

theorem one64_eq : one64 = 2 ^ (1022 + 52) := rfl

theorem prodMag_grid (n : Nat) (S : Int) (hn : n ≤ 2 ^ 64) (hS : S.natAbs ≤ 2 ^ 63) :
    Grid 1022 (prodMag n S) := by
  rcases Nat.eq_zero_or_pos n with h0 | h0
  · subst h0
    unfold prodMag
    rw [rnMag_int_zero, Nat.zero_mul, rnMag_zero _ one64_pos]
    exact grid_zero _
  rcases Nat.eq_zero_or_pos S.natAbs with hz | hz
  · unfold prodMag
    rw [hz, rnMag_int_zero, Nat.mul_zero, rnMag_zero _ one64_pos]
    exact grid_zero _
  · unfold prodMag
    apply grid_rnMag _ _ _ (prod_quot_lt n S hn hS)
    rw [← one64_eq, Nat.le_div_iff_mul_le one64_pos]
    exact Nat.mul_le_mul (rnMag_int_ge n 64 (by norm_num) h0 hn)
      (rnMag_int_ge S.natAbs 63 (by norm_num) hz hS)

theorem diff_round (s : Bool) (x : Nat) (hd : 2 ^ 1022 ∣ x) (hx : x ≤ 2 ^ 127 * one64) :
    ∃ n, roundNE s x 1 = .fin s n ∧ Grid 970 n ∧ n < ovf64 := by
  obtain ⟨hr, hle⟩ := roundNE_of_le s x 1 (2 ^ 127 * one64) (by norm_num)
    (rep_mul_one64 _ (rep_pow 127)) prod_bound_lt (by rw [Nat.mul_one]; exact hx)
  refine ⟨rnMag x 1, hr, ?_, lt_of_le_of_lt hle prod_bound_lt⟩
  rcases Nat.eq_zero_or_pos x with h0 | h0
  · subst h0
    rw [rnMag_zero 1 (by norm_num)]
    exact grid_zero _
  · apply grid_rnMag
    · rw [Nat.div_one]
      exact lt_of_le_of_lt hx (lt_trans prod_bound_lt ovf64_lt_gridBound)
    · rw [Nat.div_one]
      exact Nat.le_of_dvd h0 hd

theorem sub_grid (s : Bool) (a b : Nat) (ha : Grid 1022 a) (hb : Grid 1022 b)
    (hab : a ≤ 2 ^ 127 * one64) (hbb : b ≤ 2 ^ 127 * one64) :
    ∃ s' n, F64.sub (.fin s a) (.fin s b) = .fin s' n ∧ Grid 970 n ∧ n < ovf64 := by
  have hda := grid_dvd _ _ ha
  have hdb := grid_dvd _ _ hb
  have hns : ¬ (s = !s) := by cases s <;> simp
  simp only [F64.sub, F64.neg, F64.add, hns, if_false]
  by_cases heq : a = b
  · rw [if_pos heq]
    exact ⟨false, 0, rfl, grid_zero _, ovf64_pos⟩
  · rw [if_neg heq]
    by_cases hlt : b < a
    · rw [if_pos hlt]
      obtain ⟨n, h1, h2, h3⟩ := diff_round s (a - b) (Nat.dvd_sub' hda hdb)
        (le_trans (Nat.sub_le _ _) hab)
      exact ⟨s, n, h1, h2, h3⟩
    · rw [if_neg hlt]
      obtain ⟨n, h1, h2, h3⟩ := diff_round (!s) (b - a) (Nat.dvd_sub' hdb hda)
        (le_trans (Nat.sub_le _ _) hbb)
      exact ⟨!s, n, h1, h2, h3⟩

theorem grid_weaken (j k n : Nat) (hjk : j ≤ k) (h : Grid k n) : Grid j n := by
  obtain ⟨m, e, hm, hk, hn⟩ := h
  exact ⟨m, e, hm, le_trans hjk hk, hn⟩

theorem wrap_lt (B F : Nat) : (B + 2 ^ 64 - F) % 2 ^ 64 ≤ 2 ^ 64 :=
  le_of_lt (Nat.mod_lt _ (pow_pos (by norm_num) _))

theorem NewDf_fields (Statfs : StatfsCall) (mountPoint : String)
    (hr : ∀ st, Statfs mountPoint Statfs_t.zero = (st, none) → st.InRange) :
    (NewDf Statfs mountPoint).1.total.Coarse ∧ (NewDf Statfs mountPoint).1.used.Coarse ∧
    (NewDf Statfs mountPoint).1.avail.Coarse := by
  by_cases herr : (Statfs mountPoint Statfs_t.zero).2 = none
  · have hs : Statfs mountPoint Statfs_t.zero = ((Statfs mountPoint Statfs_t.zero).1, none) := by
      rw [← herr]
    obtain ⟨hB, _, hS1, hS2⟩ := hr _ hs
    generalize (Statfs mountPoint Statfs_t.zero).1 = st at hs hB hS1 hS2
    have hSa : st.Bsize.natAbs ≤ 2 ^ 63 := by omega
    obtain ⟨hT, hTle⟩ := conv_mul st.Blocks st.Bsize (le_of_lt hB) hSa
    obtain ⟨hU, hUle⟩ := conv_mul ((st.Blocks + 2 ^ 64 - st.Bfree) % 2 ^ 64) st.Bsize
      (wrap_lt _ _) hSa
    have gT := prodMag_grid st.Blocks st.Bsize (le_of_lt hB) hSa
    have gU := prodMag_grid ((st.Blocks + 2 ^ 64 - st.Bfree) % 2 ^ 64) st.Bsize (wrap_lt _ _) hSa
    obtain ⟨s', n, hA, gA, hAlt⟩ := sub_grid (decide (st.Bsize < 0)) _ _ gT gU hTle hUle
    rw [NewDf_success Statfs mountPoint st hs]
    simp only [hT, hU, hA]
    exact ⟨⟨grid_weaken _ _ _ (by norm_num) gT, lt_of_le_of_lt hTle prod_bound_lt⟩,
      ⟨grid_weaken _ _ _ (by norm_num) gU, lt_of_le_of_lt hUle prod_bound_lt⟩, ⟨gA, hAlt⟩⟩
  · rw [NewDf_failure Statfs mountPoint herr]
    exact ⟨⟨grid_zero _, ovf64_pos⟩, ⟨grid_zero _, ovf64_pos⟩, ⟨grid_zero _, ovf64_pos⟩⟩

/-! ## The available space is the difference -/

theorem coarse_finite (x : F64) (h : x.Coarse) : x.isFinite = true := by
  cases x with
  | nan => exact h.elim
  | inf s => exact h.elim
  | fin s n => rfl

theorem eq_self (x : F64) (h : x.isFinite = true) : F64.eq x x = true := by
  cases x with
  | nan => simp [F64.isFinite] at h
  | inf s => simp [F64.isFinite] at h
  | fin s n => simp [F64.eq]

theorem toRat_sub_exact (sg : Bool) (a b : Nat) (hba : b ≤ a) :
    (F64.fin (if a = b then false else sg) ((a - b) * one64)).toRat =
      (F64.fin sg (a * one64)).toRat - (F64.fin sg (b * one64)).toRat := by
  simp only [toRat_fin_one64]
  by_cases hab : a = b
  · simp [hab]
  · rw [if_neg hab]
    push_cast [Nat.cast_sub hba]
    ring

/-- C3: for every successful query (values of their machine types) the avail
field is the binary64 difference `total - used` of the two stored fields: the
same value, which is finite, so that Go's `avail == total - used` holds, and
`Avail(s)` is `(total - used) / s` for every scale `s`.  The binary64 difference
is moreover the exact rational difference when `F ≤ B` and the capacity
`B * |S|` is at most `2^53` bytes. -/
theorem avail_is_difference (Statfs : StatfsCall) (mountPoint : String) (st : Statfs_t)
    (h : Statfs mountPoint Statfs_t.zero = (st, none)) (hr : st.InRange) :
    (NewDf Statfs mountPoint).1.avail =
      F64.sub (NewDf Statfs mountPoint).1.total (NewDf Statfs mountPoint).1.used ∧
    (NewDf Statfs mountPoint).1.avail.isFinite = true ∧
    F64.eq (NewDf Statfs mountPoint).1.avail
      (F64.sub (NewDf Statfs mountPoint).1.total (NewDf Statfs mountPoint).1.used) = true ∧
    (∀ s : size, (NewDf Statfs mountPoint).1.Avail s =
      F64.div (F64.sub (NewDf Statfs mountPoint).1.total (NewDf Statfs mountPoint).1.used)
        (F64.ofInt s)) ∧
    (st.Bfree ≤ st.Blocks → st.Blocks * st.Bsize.natAbs ≤ 2 ^ 53 →
      (NewDf Statfs mountPoint).1.avail.toRat =
        (NewDf Statfs mountPoint).1.total.toRat - (NewDf Statfs mountPoint).1.used.toRat) := by
  have hf := NewDf_fields Statfs mountPoint (fun st' h' => by
    have : st' = st := by rw [h] at h'; exact (Prod.mk.inj h').1.symm
    rw [this]; exact hr)
  have hfin := coarse_finite _ hf.2.2
  have hsub : (NewDf Statfs mountPoint).1.avail =
      F64.sub (NewDf Statfs mountPoint).1.total (NewDf Statfs mountPoint).1.used := by
    rw [NewDf_success Statfs mountPoint st h]
  refine ⟨hsub, hfin, ?_, fun s => ?_, fun hF hBS => ?_⟩
  · rw [← hsub]; exact eq_self _ hfin
  · rw [← hsub]; rfl
  · obtain ⟨hB, _, hS1, hS2⟩ := hr
    have hSa : st.Bsize.natAbs ≤ 2 ^ 63 := by omega
    obtain ⟨hT, hU⟩ := fields_exact_small st.Blocks st.Bfree st.Bsize hF hB hSa hBS
    have hle : (st.Blocks - st.Bfree) * st.Bsize.natAbs ≤ st.Blocks * st.Bsize.natAbs :=
      Nat.mul_le_mul_right _ (Nat.sub_le _ _)
    have hd : st.Blocks * st.Bsize.natAbs - (st.Blocks - st.Bfree) * st.Bsize.natAbs ≤ 2 ^ 53 :=
      le_trans (Nat.sub_le _ _) hBS
    have hA := sub_exact (decide (st.Bsize < 0)) _ _ hle (rep_of_le _ hd)
      (lt_of_le_of_lt hd (Nat.pow_lt_pow_right (by norm_num) (by norm_num)))
    rw [NewDf_success Statfs mountPoint st h]
    simp only [hT, hU, hA]
    exact toRat_sub_exact _ _ _ hle

/-- Witness for C3: a million blocks of 4096 bytes, a quarter free, read at the
gigabyte scale. -/
theorem avail_is_difference_witness :
    (NewDf (okCall ⟨1000000, 250000, 4096⟩) "/").1.avail =
      F64.sub (NewDf (okCall ⟨1000000, 250000, 4096⟩) "/").1.total
        (NewDf (okCall ⟨1000000, 250000, 4096⟩) "/").1.used ∧
    (NewDf (okCall ⟨1000000, 250000, 4096⟩) "/").1.Avail GB =
      F64.div (F64.sub (NewDf (okCall ⟨1000000, 250000, 4096⟩) "/").1.total
        (NewDf (okCall ⟨1000000, 250000, 4096⟩) "/").1.used) (F64.ofInt GB) ∧
    (NewDf (okCall ⟨1000000, 250000, 4096⟩) "/").1.avail.toRat =
      (NewDf (okCall ⟨1000000, 250000, 4096⟩) "/").1.total.toRat -
        (NewDf (okCall ⟨1000000, 250000, 4096⟩) "/").1.used.toRat :=
  ⟨(avail_is_difference (okCall ⟨1000000, 250000, 4096⟩) "/" ⟨1000000, 250000, 4096⟩ rfl
      ⟨by norm_num, by norm_num, by norm_num, by norm_num⟩).1,
   (avail_is_difference (okCall ⟨1000000, 250000, 4096⟩) "/" ⟨1000000, 250000, 4096⟩ rfl
      ⟨by norm_num, by norm_num, by norm_num, by norm_num⟩).2.2.2.1 GB,
   (avail_is_difference (okCall ⟨1000000, 250000, 4096⟩) "/" ⟨1000000, 250000, 4096⟩ rfl
      ⟨by norm_num, by norm_num, by norm_num, by norm_num⟩).2.2.2.2 (by norm_num)
      (by norm_num)⟩

/-! ## Adjacent scales -/

theorem ofInt_pow2 (k : Nat) (hk : k < 1024) :
    F64.ofInt ((2 : Int) ^ k) = .fin false (2 ^ k * one64) := by
  have hna : ((2 : Int) ^ k).natAbs = 2 ^ k := by
    rw [Int.natAbs_pow]; rfl
  have hpos : ¬ ((2 : Int) ^ k < 0) := not_lt.mpr (le_of_lt (pow_pos (by norm_num) _))
  have := ofInt_exact ((2 : Int) ^ k) (by rw [hna]; exact rep_pow k)
    (by rw [hna]; exact Nat.pow_lt_pow_right (by norm_num) hk)
  rw [this, hna, decide_eq_false hpos]

theorem div_pow2 (s : Bool) (m e k : Nat) (hm : m ≤ 2 ^ 53) (hke : k ≤ e)
    (hn : m * 2 ^ e < ovf64) (hk : k < 1024) :
    F64.div (.fin s (m * 2 ^ e)) (F64.ofInt ((2 : Int) ^ k)) = .fin s (m * 2 ^ (e - k)) := by
  rw [ofInt_pow2 k hk]
  have hd : 2 ^ k * one64 ≠ 0 :=
    Nat.pos_iff_ne_zero.mp (Nat.mul_pos (pow_pos (by norm_num) _) one64_pos)
  have he : m * 2 ^ e * one64 = m * 2 ^ (e - k) * (2 ^ k * one64) := by
    have : (2 : Nat) ^ e = 2 ^ (e - k) * 2 ^ k := by rw [← pow_add, Nat.sub_add_cancel hke]
    rw [this]; ring
  have hle : m * 2 ^ (e - k) ≤ m * 2 ^ e :=
    Nat.mul_le_mul_left _ (Nat.pow_le_pow_right (by norm_num) (Nat.sub_le _ _))
  simp only [F64.div, hd, if_false, Bool.xor_false]
  rw [he]
  exact roundNE_exact s _ _ (Nat.pos_of_ne_zero hd) ⟨m, e - k, hm, rfl⟩ (lt_of_le_of_lt hle hn)

theorem ofNat_1024 : F64.ofNat 1024 = .fin false (2 ^ 10 * one64) := by
  have h := ofNat_exact 1024 (rep_of_le _ (by norm_num))
    (lt_trans (by norm_num : (1024 : Nat) < 2 ^ 11)
      (Nat.pow_lt_pow_right (by norm_num) (by norm_num)))
  rw [h, show (2 : Nat) ^ 10 = 1024 by norm_num]

theorem mul_1024 (s : Bool) (m e : Nat) (hm : m ≤ 2 ^ 53) (hn : m * 2 ^ (e + 10) < ovf64) :
    F64.mul (.fin s (m * 2 ^ e)) (F64.ofNat 1024) = .fin s (m * 2 ^ (e + 10)) := by
  rw [ofNat_1024]
  have he : m * 2 ^ e * (2 ^ 10 * one64) = m * 2 ^ (e + 10) * one64 := by
    rw [pow_add]; ring
  simp only [F64.mul, Bool.xor_false]
  rw [he]
  exact roundNE_exact s _ _ one64_pos ⟨m, e + 10, hm, rfl⟩ hn

theorem toRat_mul_1024 (s : Bool) (m e : Nat) :
    (F64.fin s (m * 2 ^ e)).toRat * 1024 = (F64.fin s (m * 2 ^ (e + 10))).toRat := by
  unfold F64.toRat
  push_cast
  rw [pow_add]
  ring

theorem scale_pair (x : F64) (hx : x.Coarse) (k : Nat) (hk : k + 10 ≤ 50) :
    F64.mul (F64.div x (F64.ofInt ((2 : Int) ^ (k + 10)))) (F64.ofNat 1024) =
      F64.div x (F64.ofInt ((2 : Int) ^ k)) ∧
    (F64.div x (F64.ofInt ((2 : Int) ^ (k + 10)))).isFinite = true ∧
    (F64.div x (F64.ofInt ((2 : Int) ^ (k + 10)))).toRat * 1024 =
      (F64.div x (F64.ofInt ((2 : Int) ^ k))).toRat := by
  cases x with
  | nan => exact hx.elim
  | inf s => exact hx.elim
  | fin s n =>
    obtain ⟨⟨m, e, hm, he, rfl⟩, hn⟩ := hx
    have e1 : e - (k + 10) + 10 = e - k := by omega
    rw [div_pow2 s m e (k + 10) hm (by omega) hn (by omega),
      div_pow2 s m e k hm (by omega) hn (by omega), ← e1]
    have hle : m * 2 ^ (e - (k + 10) + 10) ≤ m * 2 ^ e :=
      Nat.mul_le_mul_left _ (Nat.pow_le_pow_right (by norm_num) (by omega))
    exact ⟨mul_1024 s m _ hm (lt_of_le_of_lt hle hn), rfl, toRat_mul_1024 s m _⟩

theorem scale_values :
    KB = (2 : Int) ^ (0 + 10) ∧ MB = (2 : Int) ^ (10 + 10) ∧ GB = (2 : Int) ^ (20 + 10) ∧
    TB = (2 : Int) ^ (30 + 10) ∧ PB = (2 : Int) ^ (40 + 10) := by
  simp only [PB, TB, GB, MB, KB]
  norm_num

/-- C7: for every snapshot that `NewDf` returns (the system call reporting values
of their machine types) and every adjacent pair of scale constants, the value
at the larger scale times 1024 equals the value at the smaller scale, for
`Total`, `Used` and `Avail`: as a binary64 product, which is finite, and as an
exact rational product. -/
theorem adjacent_scales (Statfs : StatfsCall) (mountPoint : String)
    (hr : ∀ st, Statfs mountPoint Statfs_t.zero = (st, none) → st.InRange) :
    ∀ p ∈ [(KB, MB), (MB, GB), (GB, TB), (TB, PB)],
      (F64.mul ((NewDf Statfs mountPoint).1.Total p.2) (F64.ofNat 1024) =
          (NewDf Statfs mountPoint).1.Total p.1 ∧
        F64.mul ((NewDf Statfs mountPoint).1.Used p.2) (F64.ofNat 1024) =
          (NewDf Statfs mountPoint).1.Used p.1 ∧
        F64.mul ((NewDf Statfs mountPoint).1.Avail p.2) (F64.ofNat 1024) =
          (NewDf Statfs mountPoint).1.Avail p.1) ∧
      (((NewDf Statfs mountPoint).1.Total p.2).isFinite = true ∧
        ((NewDf Statfs mountPoint).1.Used p.2).isFinite = true ∧
        ((NewDf Statfs mountPoint).1.Avail p.2).isFinite = true) ∧
      (((NewDf Statfs mountPoint).1.Total p.2).toRat * 1024 =
          ((NewDf Statfs mountPoint).1.Total p.1).toRat ∧
        ((NewDf Statfs mountPoint).1.Used p.2).toRat * 1024 =
          ((NewDf Statfs mountPoint).1.Used p.1).toRat ∧
        ((NewDf Statfs mountPoint).1.Avail p.2).toRat * 1024 =
          ((NewDf Statfs mountPoint).1.Avail p.1).toRat) := by
  obtain ⟨hT, hU, hA⟩ := NewDf_fields Statfs mountPoint hr
  obtain ⟨hKB, hMB, hGB, hTB, hPB⟩ := scale_values
  have key : ∀ k, k + 10 ≤ 50 → ∀ x : F64, x.Coarse →
      F64.mul (F64.div x (F64.ofInt ((2 : Int) ^ (k + 10)))) (F64.ofNat 1024) =
        F64.div x (F64.ofInt ((2 : Int) ^ k)) ∧
      (F64.div x (F64.ofInt ((2 : Int) ^ (k + 10)))).isFinite = true ∧
      (F64.div x (F64.ofInt ((2 : Int) ^ (k + 10)))).toRat * 1024 =
        (F64.div x (F64.ofInt ((2 : Int) ^ k))).toRat :=
    fun k hk x hx => scale_pair x hx k hk
  intro p hp
  simp only [List.mem_cons, List.mem_singleton, List.mem_nil_iff, or_false] at hp
  simp only [DiskFree.Total, DiskFree.Used, DiskFree.Avail]
  rcases hp with rfl | rfl | rfl | rfl
  · simp only [hKB, hMB]
    exact ⟨⟨(key 10 (by norm_num) _ hT).1, (key 10 (by norm_num) _ hU).1,
      (key 10 (by norm_num) _ hA).1⟩,
      ⟨(key 10 (by norm_num) _ hT).2.1, (key 10 (by norm_num) _ hU).2.1,
      (key 10 (by norm_num) _ hA).2.1⟩,
      ⟨(key 10 (by norm_num) _ hT).2.2, (key 10 (by norm_num) _ hU).2.2,
      (key 10 (by norm_num) _ hA).2.2⟩⟩
  · simp only [hMB, hGB]
    exact ⟨⟨(key 20 (by norm_num) _ hT).1, (key 20 (by norm_num) _ hU).1,
      (key 20 (by norm_num) _ hA).1⟩,
      ⟨(key 20 (by norm_num) _ hT).2.1, (key 20 (by norm_num) _ hU).2.1,
      (key 20 (by norm_num) _ hA).2.1⟩,
      ⟨(key 20 (by norm_num) _ hT).2.2, (key 20 (by norm_num) _ hU).2.2,
      (key 20 (by norm_num) _ hA).2.2⟩⟩
  · simp only [hGB, hTB]
    exact ⟨⟨(key 30 (by norm_num) _ hT).1, (key 30 (by norm_num) _ hU).1,
      (key 30 (by norm_num) _ hA).1⟩,
      ⟨(key 30 (by norm_num) _ hT).2.1, (key 30 (by norm_num) _ hU).2.1,
      (key 30 (by norm_num) _ hA).2.1⟩,
      ⟨(key 30 (by norm_num) _ hT).2.2, (key 30 (by norm_num) _ hU).2.2,
      (key 30 (by norm_num) _ hA).2.2⟩⟩
  · simp only [hTB, hPB]
    exact ⟨⟨(key 40 (by norm_num) _ hT).1, (key 40 (by norm_num) _ hU).1,
      (key 40 (by norm_num) _ hA).1⟩,
      ⟨(key 40 (by norm_num) _ hT).2.1, (key 40 (by norm_num) _ hU).2.1,
      (key 40 (by norm_num) _ hA).2.1⟩,
      ⟨(key 40 (by norm_num) _ hT).2.2, (key 40 (by norm_num) _ hU).2.2,
      (key 40 (by norm_num) _ hA).2.2⟩⟩

theorem okCall_inRange (st : Statfs_t) (hst : st.InRange) (mountPoint : String) :
    ∀ st', okCall st mountPoint Statfs_t.zero = (st', none) → st'.InRange := by
  intro st' h
  have : st' = st := (Prod.mk.inj h).1.symm
  rw [this]; exact hst

/-- Witness for C7: the megabyte and gigabyte readings of the total of a million
blocks of 4096 bytes. -/
theorem adjacent_scales_witness :
    F64.mul ((NewDf (okCall ⟨1000000, 250000, 4096⟩) "/").1.Total GB) (F64.ofNat 1024) =
      (NewDf (okCall ⟨1000000, 250000, 4096⟩) "/").1.Total MB :=
  ((adjacent_scales (okCall ⟨1000000, 250000, 4096⟩) "/"
    (okCall_inRange _ ⟨by norm_num, by norm_num, by norm_num, by norm_num⟩ "/"))
    (MB, GB) (by simp)).1.1

/-! ## The accessors at every scale -/

theorem div_const_exact (x : F64) (hx : x.Coarse) (k : Nat) (hk : k ≤ 50) :
    (F64.div x (F64.ofInt ((2 : Int) ^ k))).toRat = x.toRat / (((2 : Int) ^ k : Int) : ℚ) := by
  cases x with
  | nan => exact hx.elim
  | inf s => exact hx.elim
  | fin s n =>
    obtain ⟨⟨m, e, hm, he, rfl⟩, hn⟩ := hx
    rw [div_pow2 s m e k hm (by omega) hn (by omega)]
    unfold F64.toRat
    have h2 : (2 : ℚ) ^ e = 2 ^ (e - k) * 2 ^ k := by
      rw [← pow_add, Nat.sub_add_cancel (by omega)]
    have hk0 : (2 : ℚ) ^ k ≠ 0 := pow_ne_zero _ (by norm_num)
    have h0 : (2 : ℚ) ^ 1074 ≠ 0 := pow_ne_zero _ (by norm_num)
    push_cast
    rw [h2]
    field_simp
    split_ifs <;> ring

theorem scale_powers :
    (1 : size) = (2 : Int) ^ 0 ∧ KB = (2 : Int) ^ 10 ∧ MB = (2 : Int) ^ 20 ∧
    GB = (2 : Int) ^ 30 ∧ TB = (2 : Int) ^ 40 ∧ PB = (2 : Int) ^ 50 := by
  simp only [PB, TB, GB, MB, KB]
  norm_num

/-- C6: for every snapshot (its fields being binary64 values) and every scale
`s`, `Total`, `Used` and `Avail` return the binary64 quotient of the stored
field by `float64(s)`; with the byte scale `s = 1` each returns the stored field
unchanged.  For fields as `NewDf` produces them (finite, zero or of magnitude at
least `2^(-52)`) and the scales `1`, `KB`, `MB`, `GB`, `TB`, `PB` the binary64
quotient is the exact rational quotient. -/
theorem accessors_divide (d : DiskFree)
    (hv : d.total.Valid ∧ d.used.Valid ∧ d.avail.Valid) (s : size) :
    (d.Total s = F64.div d.total (F64.ofInt s) ∧
      d.Used s = F64.div d.used (F64.ofInt s) ∧
      d.Avail s = F64.div d.avail (F64.ofInt s)) ∧
    (d.Total 1 = d.total ∧ d.Used 1 = d.used ∧ d.Avail 1 = d.avail) ∧
    (d.total.Coarse ∧ d.used.Coarse ∧ d.avail.Coarse →
      ∀ c ∈ [(1 : size), KB, MB, GB, TB, PB],
        (d.Total c).toRat = d.total.toRat / (c : ℚ) ∧
        (d.Used c).toRat = d.used.toRat / (c : ℚ) ∧
        (d.Avail c).toRat = d.avail.toRat / (c : ℚ)) := by
  refine ⟨⟨rfl, rfl, rfl⟩, ⟨div_one _ hv.1, div_one _ hv.2.1, div_one _ hv.2.2⟩, ?_⟩
  rintro ⟨hT, hU, hA⟩ c hc
  obtain ⟨h1, hKB, hMB, hGB, hTB, hPB⟩ := scale_powers
  simp only [List.mem_cons, List.mem_singleton, List.mem_nil_iff, or_false] at hc
  simp only [DiskFree.Total, DiskFree.Used, DiskFree.Avail]
  rcases hc with rfl | rfl | rfl | rfl | rfl | rfl
  · rw [h1]
    exact ⟨div_const_exact _ hT 0 (by norm_num), div_const_exact _ hU 0 (by norm_num),
      div_const_exact _ hA 0 (by norm_num)⟩
  · rw [hKB]
    exact ⟨div_const_exact _ hT 10 (by norm_num), div_const_exact _ hU 10 (by norm_num),
      div_const_exact _ hA 10 (by norm_num)⟩
  · rw [hMB]
    exact ⟨div_const_exact _ hT 20 (by norm_num), div_const_exact _ hU 20 (by norm_num),
      div_const_exact _ hA 20 (by norm_num)⟩
  · rw [hGB]
    exact ⟨div_const_exact _ hT 30 (by norm_num), div_const_exact _ hU 30 (by norm_num),
      div_const_exact _ hA 30 (by norm_num)⟩
  · rw [hTB]
    exact ⟨div_const_exact _ hT 40 (by norm_num), div_const_exact _ hU 40 (by norm_num),
      div_const_exact _ hA 40 (by norm_num)⟩
  · rw [hPB]
    exact ⟨div_const_exact _ hT 50 (by norm_num), div_const_exact _ hU 50 (by norm_num),
      div_const_exact _ hA 50 (by norm_num)⟩

theorem coarse_int (s : Bool) (n : Nat) (hn : n ≤ 2 ^ 53) : (F64.fin s (n * one64)).Coarse :=
  ⟨⟨n, 1074, hn, by norm_num, rfl⟩,
    mul_one64_lt_ovf64 n 54 (by norm_num)
      (lt_of_le_of_lt hn (Nat.pow_lt_pow_right (by norm_num) (by norm_num)))⟩

theorem coarse_valid (x : F64) (h : x.Coarse) : x.Valid := by
  cases x with
  | nan => trivial
  | inf s => trivial
  | fin s n => exact ⟨grid_rep _ _ h.1, h.2⟩

/-- Witness for C6: the snapshot holding 3, 2 and 1, read at the gigabyte scale
and at the byte scale. -/
theorem accessors_divide_witness :
    (DiskFree.mk (.fin false (3 * one64)) (.fin false (2 * one64)) (.fin false (1 * one64))
        0).Total GB = F64.div (.fin false (3 * one64)) (F64.ofInt GB) ∧
    (DiskFree.mk (.fin false (3 * one64)) (.fin false (2 * one64)) (.fin false (1 * one64))
        0).Used 1 = .fin false (2 * one64) ∧
    ((DiskFree.mk (.fin false (3 * one64)) (.fin false (2 * one64)) (.fin false (1 * one64))
        0).Avail GB).toRat = (F64.fin false (1 * one64)).toRat / ((GB : Int) : ℚ) :=
  ⟨(accessors_divide
      (DiskFree.mk (.fin false (3 * one64)) (.fin false (2 * one64)) (.fin false (1 * one64)) 0)
      ⟨coarse_valid _ (coarse_int false 3 (by norm_num)),
        coarse_valid _ (coarse_int false 2 (by norm_num)),
        coarse_valid _ (coarse_int false 1 (by norm_num))⟩ GB).1.1,
   (accessors_divide
      (DiskFree.mk (.fin false (3 * one64)) (.fin false (2 * one64)) (.fin false (1 * one64)) 0)
      ⟨coarse_valid _ (coarse_int false 3 (by norm_num)),
        coarse_valid _ (coarse_int false 2 (by norm_num)),
        coarse_valid _ (coarse_int false 1 (by norm_num))⟩ GB).2.1.2.1,
   ((accessors_divide
      (DiskFree.mk (.fin false (3 * one64)) (.fin false (2 * one64)) (.fin false (1 * one64)) 0)
      ⟨coarse_valid _ (coarse_int false 3 (by norm_num)),
        coarse_valid _ (coarse_int false 2 (by norm_num)),
        coarse_valid _ (coarse_int false 1 (by norm_num))⟩ GB).2.2
      ⟨coarse_int false 3 (by norm_num), coarse_int false 2 (by norm_num),
        coarse_int false 1 (by norm_num)⟩ GB (by simp)).2.2⟩

end Df
